import Mathlib

/-!
Verification of the s3up concurrent S3 uploader core.

This file gives a shallow embedding of the pure algorithmic core of the
repository (the multi-part hasher `hash_parts.go`, the part sources
`source.go`, the completion assembly and error aggregation of
`s3_hasher.go`, the part-id counter of `s3_upload_parts.go`, the object
dispatcher of `s3_uploader.go`, and the key normalizer `S3Key`), and proves
or refutes the frozen behavioural claims about it.

Conventions:
* Go byte slices are `List Nat` (each element a byte value).
* Cryptographic digests are abstracted by an arbitrary function
  `dg : List Nat → List Nat`: a `hash.Hash` object is represented by the
  byte sequence written to it, and `Sum` applies `dg` to that sequence.
  Claims about digest equality hold for every `dg`, hence in particular for
  SHA-256, SHA-1, CRC32, CRC32C and MD5.
* Fallible Go functions return `Except` / `Option` values.
-/

namespace S3up

/-- A Go byte value. -/
abbrev Byte := Nat

/-! ## Canonical chunking of a byte sequence

`chunksOf p B` splits `B` into consecutive chunks of `p` bytes, the last
chunk possibly shorter.  This is the specification-side description of how
`HashParts.Write` routes bytes into parts; it is not itself a translation
of Go code. -/

/-- Split a list into consecutive chunks of size `p` (last chunk possibly
shorter).  Only used with `0 < p`. -/
def chunksOf (p : Nat) : List α → List (List α)
  | [] => []
  | a :: as => ((a :: as).take p) :: chunksOf p (as.drop (p - 1))
termination_by l => l.length
decreasing_by
  simp only [List.length_cons]
  exact Nat.lt_succ_of_le (List.length_drop (p - 1) as ▸ Nat.sub_le _ _)

theorem chunksOf_nil (p : Nat) : chunksOf p ([] : List α) = [] := by
  simp [chunksOf]

theorem drop_cons_of_pos (p : Nat) (hp : 0 < p) (a : α) (as : List α) :
    (a :: as).drop p = as.drop (p - 1) := by
  match p, hp with
  | p + 1, _ => simp

theorem chunksOf_eq_cons (p : Nat) (hp : 0 < p) (l : List α) (hl : l ≠ []) :
    chunksOf p l = l.take p :: chunksOf p (l.drop p) := by
  match l with
  | [] => exact absurd rfl hl
  | a :: as =>
    rw [chunksOf, drop_cons_of_pos p hp]

theorem chunksOf_flatten (p : Nat) (hp : 0 < p) (l : List α) :
    (chunksOf p l).flatten = l := by
  induction l using chunksOf.induct p with
  | case1 => simp [chunksOf_nil]
  | case2 a as ih =>
    rw [chunksOf_eq_cons p hp _ (by simp), drop_cons_of_pos p hp]
    rw [List.flatten_cons, ih, ← drop_cons_of_pos p hp,
      List.take_append_drop]

theorem chunksOf_singleton (p : Nat) (hp : 0 < p) (l : List α) (hl : l ≠ [])
    (hlen : l.length ≤ p) : chunksOf p l = [l] := by
  rw [chunksOf_eq_cons p hp l hl, List.take_of_length_le hlen,
    List.drop_of_length_le hlen, chunksOf_nil]

theorem chunksOf_append (p : Nat) (hp : 0 < p) (A B : List α)
    (hA : p ∣ A.length) :
    chunksOf p (A ++ B) = chunksOf p A ++ chunksOf p B := by
  induction A using chunksOf.induct p with
  | case1 => simp [chunksOf_nil]
  | case2 a as ih =>
    have hplen : p ≤ (a :: as).length := by
      rcases hA with ⟨k, hk⟩
      rcases k with _ | k
      · simp at hk
      · rw [hk]; exact Nat.le_mul_of_pos_right p (Nat.succ_pos k)
    have hA' : p ∣ ((a :: as).drop p).length := by
      rw [List.length_drop]
      exact Nat.dvd_sub' hA dvd_rfl
    rw [drop_cons_of_pos p hp] at hA'
    have htake : ((a :: as) ++ B).take p = (a :: as).take p := by
      rw [List.take_append_eq_append_take,
        Nat.sub_eq_zero_of_le hplen, List.take_zero, List.append_nil]
    have hdropapp : ((a :: as) ++ B).drop p = (a :: as).drop p ++ B := by
      rw [List.drop_append_eq_append_drop, Nat.sub_eq_zero_of_le hplen,
        List.drop_zero]
    rw [chunksOf_eq_cons p hp ((a :: as) ++ B) (by simp),
      chunksOf_eq_cons p hp (a :: as) (by simp),
      htake, hdropapp, drop_cons_of_pos p hp, ih hA']
    simp

theorem chunksOf_length_mem (p : Nat) (l : List α)
    (c : List α) (hc : c ∈ chunksOf p l) : c.length ≤ p := by
  induction l using chunksOf.induct p with
  | case1 => simp [chunksOf_nil] at hc
  | case2 a as ih =>
    rw [chunksOf] at hc
    rcases List.mem_cons.1 hc with h | h
    · subst h; exact List.length_take_le _ _
    · exact ih h

theorem chunksOf_full_mem (p : Nat) (hp : 0 < p) (l : List α)
    (hl : p ∣ l.length) (c : List α) (hc : c ∈ chunksOf p l) :
    c.length = p := by
  induction l using chunksOf.induct p with
  | case1 => simp [chunksOf_nil] at hc
  | case2 a as ih =>
    have hplen : p ≤ (a :: as).length := by
      rcases hl with ⟨k, hk⟩
      rcases k with _ | k
      · simp at hk
      · rw [hk]; exact Nat.le_mul_of_pos_right p (Nat.succ_pos k)
    have hl' : p ∣ ((a :: as).drop p).length := by
      rw [List.length_drop]
      exact Nat.dvd_sub' hl dvd_rfl
    rw [drop_cons_of_pos p hp] at hl'
    rw [chunksOf] at hc
    rcases List.mem_cons.1 hc with h | h
    · subst h
      rw [List.length_take]
      simp only [List.length_cons] at hplen ⊢
      omega
    · exact ih hl' h

theorem chunksOf_getElem (p : Nat) (hp : 0 < p) (l : List α) (i : Nat)
    (hi : i < (chunksOf p l).length) :
    (chunksOf p l)[i] = (l.drop (i * p)).take p := by
  induction l using chunksOf.induct p generalizing i with
  | case1 => simp [chunksOf_nil] at hi
  | case2 a as ih =>
    simp only [chunksOf_eq_cons p hp (a :: as) (by simp),
      drop_cons_of_pos p hp] at hi ⊢
    rcases i with _ | i
    · simp
    · simp only [List.getElem_cons_succ]
      rw [ih i (by simpa using hi)]
      rw [← drop_cons_of_pos p hp a as, List.drop_drop]
      congr 2
      ring

/-! ## MultiPartHasher (`hash_parts.go`)

`HashParts` holds a maximum part size and a list of `HashPart`s; the
current (open) part `hp.p` aliases the last element of `hp.h` in Go.  We
represent a `HashPart` by the byte sequence written to its `hash.Hash`
(the field `n` of the Go struct always equals the length of that
sequence, since `Write` adds `n` exactly the bytes it writes to `h`).
The state splits Go's `hp.h` into the parts whose pointer `hp.p` was
already reset to `nil` (`done`) and the still-open part (`cur`,
mirroring `hp.p`); Go's `hp.h` is `done ++ cur.toList`. -/

structure HashParts where
  /-- maximum number of bytes per part (`hp.partSize`). -/
  partSize : Nat
  /-- parts that were filled to `partSize` bytes (`hp.p` was reset). -/
  done : List (List Byte)
  /-- the currently open part, i.e. Go's `hp.p` (`none` when `hp.p == nil`). -/
  cur : Option (List Byte)
deriving Repr, DecidableEq

/-- The loop body of `HashParts.Write` (`hash_parts.go` lines 102-133).
Each iteration allocates a fresh part when `hp.p == nil`, writes
`n := min(len(buf), partSize - hp.p.n)` bytes into the current part and
resets `hp.p` when it reaches `partSize`.  `fuel` bounds the number of
iterations: when `0 < partSize` every iteration consumes at least one
byte of `buf`, so `fuel = buf.length` reproduces the Go loop exactly; the
Go loop does not terminate when `partSize = 0` and `buf` is non-empty. -/
def hpLoop (partSize : Nat) :
    Nat → List (List Byte) → Option (List Byte) → List Byte →
      List (List Byte) × Option (List Byte)
  | _, done, cur, [] => (done, cur)
  | 0, done, cur, _ :: _ => (done, cur)
  | fuel + 1, done, cur, b :: bs =>
      let c := cur.getD []
      let n := min (b :: bs).length (partSize - c.length)
      let c2 := c ++ (b :: bs).take n
      let rest := (b :: bs).drop n
      if c2.length = partSize then
        hpLoop partSize fuel (done ++ [c2]) none rest
      else
        hpLoop partSize fuel done (some c2) rest

/-- `HashParts.Write` (`hash_parts.go` lines 88-136): if `hp.p` is `nil` a
fresh `HashPart` is appended before the loop; then the loop distributes
`buf` over parts.  `Write` never returns an error, so the model returns
just the new state. -/
def HashParts.write (s : HashParts) (buf : List Byte) : HashParts :=
  let cur0 := some (s.cur.getD [])
  let r := hpLoop s.partSize buf.length s.done cur0 buf
  { s with done := r.1, cur := r.2 }

/-- `NewHashParts`: no parts yet, `hp.p == nil`. -/
def hashPartsInit (partSize : Nat) : HashParts :=
  { partSize := partSize, done := [], cur := none }

/-- Go's `hp.h` slice: all parts in creation order, the open part last. -/
def HashParts.parts (s : HashParts) : List (List Byte) :=
  s.done ++ s.cur.toList

/-- `HashParts.Count`. -/
def HashParts.count (s : HashParts) : Nat := s.parts.length

/-- `HashParts.PartSize(partID)` (1-indexed): `hp.h[partID-1].n`. -/
def HashParts.partSizeAt (s : HashParts) (partID : Nat) : Nat :=
  ((s.parts.getD (partID - 1) [])).length

/-- `HashParts.Sum(partID)` (1-indexed): the digest of the bytes written
to part `partID`, for digest function `dg`. -/
def HashParts.sumAt (dg : List Byte → List Byte) (s : HashParts)
    (partID : Nat) : List Byte :=
  dg (s.parts.getD (partID - 1) [])

/-- `HashParts.SumOfSums`: digest of the concatenation of the per-part
digests, in part order. -/
def HashParts.sumOfSums (dg : List Byte → List Byte) (s : HashParts) :
    List Byte :=
  dg (s.parts.map dg).flatten

/-- Feeding a sequence of `Write` calls. -/
def HashParts.writeAll (s : HashParts) (ws : List (List Byte)) : HashParts :=
  ws.foldl HashParts.write s

/-- Canonical state of the hasher after absorbing `B` in total: all exact
`p`-chunks of `B` are closed parts and the ragged tail (if any) is the
open part. -/
def hpNorm (p : Nat) (B : List Byte) : HashParts :=
  let r := B.length % p
  if r = 0 then
    { partSize := p, done := chunksOf p B, cur := none }
  else
    { partSize := p, done := chunksOf p (B.take (B.length - r)),
      cur := some (B.drop (B.length - r)) }

/-- Result of pouring `buf` into an open part currently holding `c`:
the closed parts produced and the resulting open part. -/
def hpFill (p : Nat) (c buf : List Byte) :
    List (List Byte) × Option (List Byte) :=
  if buf = [] then ([], some c)
  else
    let t := c ++ buf
    let r := t.length % p
    if r = 0 then (chunksOf p t, none)
    else (chunksOf p (t.take (t.length - r)), some (t.drop (t.length - r)))

theorem take_append_len (A B : List α) (k : Nat) :
    (A ++ B).take (A.length + k) = A ++ B.take k := by
  rw [List.take_append_eq_append_take]
  rw [List.take_of_length_le (by omega)]
  congr 2
  omega

theorem drop_append_len (A B : List α) (k : Nat) :
    (A ++ B).drop (A.length + k) = B.drop k := by
  rw [List.drop_append_eq_append_drop]
  rw [List.drop_of_length_le (by omega)]
  simp only [List.nil_append]
  congr 1
  omega

theorem hpLoop_nil (p fuel : Nat) (done : List (List Byte))
    (cur : Option (List Byte)) :
    hpLoop p fuel done cur [] = (done, cur) := by
  cases fuel <;> rfl

theorem hpLoop_none (p fuel : Nat) (hfuel : 0 < fuel)
    (done : List (List Byte)) (b : Byte) (bs : List Byte) :
    hpLoop p fuel done none (b :: bs) =
      hpLoop p fuel done (some []) (b :: bs) := by
  match fuel, hfuel with
  | f + 1, _ => rfl

/-- Pouring fewer than `partSize - c.length` bytes just extends the open
part. -/
theorem hpFill_small (p : Nat) (c buf : List Byte) (hbuf : buf ≠ [])
    (hlen : (c ++ buf).length < p) :
    hpFill p c buf = ([], some (c ++ buf)) := by
  rw [hpFill, if_neg hbuf]
  have h1 : 0 < (c ++ buf).length := by
    simp only [List.length_append]
    have : 0 < buf.length := List.length_pos.2 hbuf
    omega
  have hmod : (c ++ buf).length % p = (c ++ buf).length :=
    Nat.mod_eq_of_lt hlen
  have hne : (c ++ buf).length % p ≠ 0 := by rw [hmod]; omega
  simp only [if_neg hne, hmod]
  rw [Nat.sub_self, List.take_zero, chunksOf_nil, List.drop_zero]
  rw [if_neg (by omega : ¬ (c ++ buf).length = 0)]

/-- Pouring exactly `partSize - c.length` bytes closes the part. -/
theorem hpFill_exact (p : Nat) (hp : 0 < p) (c buf : List Byte)
    (hbuf : buf ≠ []) (hlen : (c ++ buf).length = p) :
    hpFill p c buf = ([c ++ buf], none) := by
  rw [hpFill, if_neg hbuf]
  have h0 : (c ++ buf).length % p = 0 := by rw [hlen]; exact Nat.mod_self p
  simp only [if_pos h0]
  rw [chunksOf_singleton p hp (c ++ buf) (by simp [hbuf]) (le_of_eq hlen)]

/-- Splitting one closed part `c2` off the front of a fill. -/
theorem hpFill_split (p : Nat) (hp : 0 < p) (c buf c2 rest : List Byte)
    (hbuf : buf ≠ []) (hrest : rest ≠ [])
    (ht : c ++ buf = c2 ++ rest) (hc2 : c2.length = p) :
    hpFill p c buf = (c2 :: (hpFill p [] rest).1, (hpFill p [] rest).2) := by
  have hc2ne : c2 ≠ [] := by
    intro h
    rw [h] at hc2
    simp at hc2
    omega
  have hchunkc2 : chunksOf p c2 = [c2] :=
    chunksOf_singleton p hp c2 hc2ne (le_of_eq hc2)
  have hdvd : p ∣ c2.length := hc2 ▸ dvd_rfl
  rw [hpFill, if_neg hbuf, hpFill, if_neg hrest]
  simp only [List.nil_append]
  have hlt : (c ++ buf).length = p + rest.length := by
    rw [ht, List.length_append, hc2]
  have hmod : (c ++ buf).length % p = rest.length % p := by
    rw [hlt, Nat.add_mod_left]
  by_cases hr : rest.length % p = 0
  · simp only [hmod, hr, if_pos rfl]
    rw [ht, chunksOf_append p hp c2 rest hdvd, hchunkc2]
    simp
  · simp only [hmod, if_neg hr]
    have hmle := Nat.mod_le rest.length p
    have hk : (c2 ++ rest).length - rest.length % p =
        c2.length + (rest.length - rest.length % p) := by
      rw [List.length_append, hc2]
      omega
    rw [ht, hk, take_append_len, drop_append_len,
      chunksOf_append p hp c2 _ hdvd, hchunkc2]
    simp

/-- The `Write` loop, started on an open part holding `c` with enough
fuel, closes exact-`partSize` parts and leaves the ragged tail open,
as described by `hpFill`. -/
theorem hpLoop_eq_fill (p : Nat) (hp : 0 < p) (fuel : Nat) :
    ∀ (done : List (List Byte)) (c buf : List Byte),
      c.length < p → buf.length ≤ fuel →
      hpLoop p fuel done (some c) buf =
        (done ++ (hpFill p c buf).1, (hpFill p c buf).2) := by
  induction fuel with
  | zero =>
    intro done c buf hc hbuf
    have hb : buf = [] := List.length_eq_zero.1 (Nat.le_zero.1 hbuf)
    subst hb
    simp [hpLoop, hpFill]
  | succ f ih =>
    intro done c buf hc hbuf
    match buf with
    | [] => simp [hpLoop, hpFill]
    | b :: bs =>
      have hbufne : (b :: bs) ≠ ([] : List Byte) := by simp
      simp only [hpLoop, Option.getD_some]
      set n := min (b :: bs).length (p - c.length) with hn
      have hnpos : 0 < n := by
        simp only [hn]
        exact lt_min (by simp) (by omega)
      set c2 := c ++ (b :: bs).take n with hc2
      set rest := (b :: bs).drop n with hrest
      have hlenc2 : c2.length = c.length + n := by
        simp only [hc2, List.length_append, List.length_take]
        simp only [hn]
        omega
      have hlenrest : rest.length = (b :: bs).length - n := by
        simp only [hrest, List.length_drop]
      have htr : c ++ (b :: bs) = c2 ++ rest := by
        simp only [hc2, hrest, List.append_assoc, List.take_append_drop]
      by_cases hfull : c2.length = p
      · -- the current part reached partSize and is closed
        rw [if_pos hfull]
        by_cases hr0 : rest = []
        · have ht : c ++ (b :: bs) = c2 := by
            rw [htr, hr0, List.append_nil]
          have hfull2 : (c ++ (b :: bs)).length = p := by rw [ht]; exact hfull
          rw [hr0, hpLoop_nil]
          rw [hpFill_exact p hp c (b :: bs) hbufne hfull2, ht]
        · have hrlen : 1 ≤ rest.length :=
            Nat.one_le_iff_ne_zero.2 (fun h =>
              hr0 (List.length_eq_zero.1 h))
          have hflen : 0 < f := by
            simp only [hlenrest] at hrlen
            simp only [List.length_cons] at hbuf hrlen ⊢
            omega
          obtain ⟨r, rs, hrr⟩ := List.exists_cons_of_ne_nil hr0
          rw [hrr, hpLoop_none p f hflen, ← hrr, ih (done ++ [c2]) [] rest
            (by simpa using hp)
            (by
              simp only [hlenrest]
              simp only [List.length_cons] at hbuf ⊢
              omega)]
          rw [hpFill_split p hp c (b :: bs) c2 rest hbufne hr0 htr hfull]
          simp
      · -- the write fits in the open part: everything was consumed
        rw [if_neg hfull]
        have hc2lt : c2.length < p := by
          have : c2.length ≤ p := by
            rw [hlenc2]
            simp only [hn]
            omega
          omega
        have hnall : n = (b :: bs).length := by
          simp only [hn] at *
          omega
        have hr0 : rest = [] := by
          simp only [hrest, hnall, List.drop_length]
      -- after consuming everything, the loop returns immediately
        rw [hr0, hpLoop_nil]
        have ht : c ++ (b :: bs) = c2 := by
          rw [htr, hr0, List.append_nil]
        have hlt2 : (c ++ (b :: bs)).length < p := by rw [ht]; exact hc2lt
        rw [hpFill_small p c (b :: bs) hbufne hlt2, ht]
        simp

theorem write_fill (p : Nat) (hp : 0 < p) (dn : List (List Byte))
    (c : List Byte) (hc : c.length < p) (b : List Byte) :
    HashParts.write ⟨p, dn, some c⟩ b =
      ⟨p, dn ++ (hpFill p c b).1, (hpFill p c b).2⟩ := by
  unfold HashParts.write
  simp only [Option.getD_some]
  rw [hpLoop_eq_fill p hp b.length dn c b hc le_rfl]

theorem write_fill_none (p : Nat) (hp : 0 < p) (dn : List (List Byte))
    (b : List Byte) :
    HashParts.write ⟨p, dn, none⟩ b =
      ⟨p, dn ++ (hpFill p [] b).1, (hpFill p [] b).2⟩ := by
  unfold HashParts.write
  simp only [Option.getD_none]
  rw [hpLoop_eq_fill p hp b.length dn [] b (by simpa using hp) le_rfl]

theorem take_length_dvd (p : Nat) (B : List Byte) :
    p ∣ (B.take (B.length - B.length % p)).length := by
  rw [List.length_take]
  have h := Nat.div_add_mod B.length p
  exact ⟨B.length / p, by omega⟩

/-- `Write` of a non-empty buffer advances the canonical state. -/
theorem write_norm (p : Nat) (hp : 0 < p) (B b : List Byte) (hb : b ≠ []) :
    (hpNorm p B).write b = hpNorm p (B ++ b) := by
  have hblen : 0 < b.length := List.length_pos.2 hb
  have hmodp : B.length % p < p := Nat.mod_lt B.length hp
  have hmodle : B.length % p ≤ B.length := Nat.mod_le B.length p
  by_cases hB : B.length % p = 0
  · -- the open part is empty at a part boundary
    obtain ⟨k, hk⟩ : p ∣ B.length := Nat.dvd_of_mod_eq_zero hB
    have hmodapp : (B ++ b).length % p = b.length % p := by
      rw [List.length_append, hk, Nat.mul_add_mod]
    have hstate : hpNorm p B = ⟨p, chunksOf p B, none⟩ := by
      rw [hpNorm]
      simp [hB]
    rw [hstate, write_fill_none p hp]
    rw [hpFill, if_neg hb]
    simp only [List.nil_append]
    by_cases hb2 : b.length % p = 0
    · rw [if_pos hb2, hpNorm, hmodapp]
      simp only [hb2, if_pos rfl]
      rw [chunksOf_append p hp B b (Nat.dvd_of_mod_eq_zero hB)]
      simp
    · rw [if_neg hb2, hpNorm, hmodapp]
      simp only [if_neg hb2]
      have hble : b.length % p ≤ b.length := Nat.mod_le b.length p
      have harith : (B ++ b).length - b.length % p =
          B.length + (b.length - b.length % p) := by
        rw [List.length_append]
        omega
      rw [harith, take_append_len, drop_append_len,
        chunksOf_append p hp B _ (Nat.dvd_of_mod_eq_zero hB)]
  · -- the open part holds the ragged tail of B
    have hstate : hpNorm p B =
        ⟨p, chunksOf p (B.take (B.length - B.length % p)),
          some (B.drop (B.length - B.length % p))⟩ := by
      rw [hpNorm]
      simp [hB]
    have hclen : (B.drop (B.length - B.length % p)).length = B.length % p := by
      rw [List.length_drop]
      omega
    rw [hstate, write_fill p hp _ _ (by rw [hclen]; exact hmodp)]
    have hsplitB : B.take (B.length - B.length % p) ++
        B.drop (B.length - B.length % p) = B := List.take_append_drop _ _
    set B' := B.take (B.length - B.length % p) with hB'
    set cB := B.drop (B.length - B.length % p) with hcB
    have hdvdB' : p ∣ B'.length := take_length_dvd p B
    have hlenB' : B'.length = B.length - B.length % p := by
      rw [hB', List.length_take]
      omega
    rw [hpFill, if_neg hb]
    simp only []
    have htB : B' ++ (cB ++ b) = B ++ b := by
      rw [← List.append_assoc, hsplitB]
    have htlen : (cB ++ b).length = B.length % p + b.length := by
      rw [List.length_append, hclen]
    have hmodapp : (B ++ b).length % p = (cB ++ b).length % p := by
      rw [← htB, List.length_append]
      obtain ⟨k, hk⟩ := hdvdB'
      rw [hk, Nat.mul_add_mod]
    by_cases hb2 : (cB ++ b).length % p = 0
    · rw [if_pos hb2, hpNorm, hmodapp]
      simp only [hb2, if_pos rfl]
      rw [← htB, chunksOf_append p hp B' (cB ++ b) hdvdB']
      simp
    · rw [if_neg hb2, hpNorm, hmodapp]
      simp only [if_neg hb2]
      have hble : (cB ++ b).length % p ≤ (cB ++ b).length :=
        Nat.mod_le _ _
      have harith : (B' ++ (cB ++ b)).length - (cB ++ b).length % p =
          B'.length + ((cB ++ b).length - (cB ++ b).length % p) := by
        rw [List.length_append]
        omega
      rw [← htB, harith, take_append_len, drop_append_len,
        chunksOf_append p hp B' _ hdvdB']

/-- One empty `Write` call: if `hp.p == nil` a fresh empty part is
appended; otherwise nothing changes. -/
theorem write_nil_buf (s : HashParts) :
    s.write [] = { s with cur := some (s.cur.getD []) } := by
  simp only [HashParts.write, hpLoop_nil]

/-- The states of the hasher reachable after absorbing `B` in total:
either the canonical state, or (immediately after an empty `Write` at a
part boundary) the canonical state with an extra empty open part. -/
def Reach (p : Nat) (B : List Byte) (s : HashParts) : Prop :=
  s = hpNorm p B ∨
    (B.length % p = 0 ∧ s = { hpNorm p B with cur := some [] })

theorem reach_write (p : Nat) (hp : 0 < p) (B : List Byte) (s : HashParts)
    (w : List Byte) (h : Reach p B s) : Reach p (B ++ w) (s.write w) := by
  by_cases hw : w = []
  · subst hw
    rw [List.append_nil]
    rcases h with h | ⟨hB, h⟩
    · subst h
      by_cases hB : B.length % p = 0
      · right
        refine ⟨hB, ?_⟩
        rw [write_nil_buf, hpNorm]
        simp [hB, hpNorm]
      · left
        rw [write_nil_buf, hpNorm]
        simp [hB, hpNorm]
    · subst h
      right
      exact ⟨hB, by rw [write_nil_buf]; simp⟩
  · rcases h with h | ⟨hB, h⟩
    · subst h
      exact Or.inl (write_norm p hp B w hw)
    · subst h
      left
      have hstate : hpNorm p B = ⟨p, chunksOf p B, none⟩ := by
        rw [hpNorm]
        simp [hB]
      have : ({ hpNorm p B with cur := some [] } : HashParts).write w =
          (hpNorm p B).write w := by
        rw [hstate, write_fill p hp _ _ (by simpa using hp),
          write_fill_none p hp]
      rw [this, write_norm p hp B w hw]

theorem reach_init (p : Nat) : Reach p [] (hashPartsInit p) := by
  left
  rw [hashPartsInit, hpNorm]
  simp [chunksOf_nil]

theorem reach_writeAll (p : Nat) (hp : 0 < p) (ws : List (List Byte)) :
    ∀ (B : List Byte) (s : HashParts), Reach p B s →
      Reach p (B ++ ws.flatten) (s.writeAll ws) := by
  induction ws with
  | nil =>
    intro B s h
    simpa [HashParts.writeAll] using h
  | cons w ws ih =>
    intro B s h
    have h1 := reach_write p hp B s w h
    have h2 := ih (B ++ w) (s.write w) h1
    rw [List.flatten_cons, ← List.append_assoc]
    exact h2

theorem reach_writeAll_init (p : Nat) (hp : 0 < p) (ws : List (List Byte)) :
    Reach p ws.flatten ((hashPartsInit p).writeAll ws) := by
  have := reach_writeAll p hp ws [] (hashPartsInit p) (reach_init p)
  simpa using this

theorem writeAll_norm_aux (p : Nat) (hp : 0 < p) :
    ∀ (ws : List (List Byte)), (∀ w ∈ ws, w ≠ []) →
      ∀ B, (hpNorm p B).writeAll ws = hpNorm p (B ++ ws.flatten) := by
  intro ws
  induction ws with
  | nil =>
    intro _ B
    simp [HashParts.writeAll]
  | cons w ws ih =>
    intro hws B
    have hw : w ≠ [] := hws w (by simp)
    have hws' : ∀ x ∈ ws, x ≠ [] := fun x hx => hws x (by simp [hx])
    show HashParts.writeAll ((hpNorm p B).write w) ws = _
    rw [write_norm p hp B w hw, ih hws' (B ++ w), List.flatten_cons,
      List.append_assoc]

/-- With only non-empty writes the state is exactly the canonical one. -/
theorem writeAll_norm (p : Nat) (hp : 0 < p) (ws : List (List Byte))
    (hws : ∀ w ∈ ws, w ≠ []) :
    (hashPartsInit p).writeAll ws = hpNorm p ws.flatten := by
  have hinit : hashPartsInit p = hpNorm p [] := by
    rw [hashPartsInit, hpNorm]
    simp [chunksOf_nil]
  rw [hinit, writeAll_norm_aux p hp ws hws []]
  simp

/-- The part byte-sequences of the canonical state are the canonical
chunking. -/
theorem parts_hpNorm (p : Nat) (hp : 0 < p) (B : List Byte) :
    (hpNorm p B).parts = chunksOf p B := by
  have hmodle : B.length % p ≤ B.length := Nat.mod_le B.length p
  by_cases hB : B.length % p = 0
  · rw [hpNorm]
    simp [hB, HashParts.parts]
  · rw [hpNorm]
    simp only [hB, if_neg hB]
    show chunksOf p (B.take (B.length - B.length % p)) ++
      [B.drop (B.length - B.length % p)] = chunksOf p B
    have hdvd : p ∣ (B.take (B.length - B.length % p)).length :=
      take_length_dvd p B
    have hdropne : B.drop (B.length - B.length % p) ≠ [] := by
      intro h
      have := congrArg List.length h
      rw [List.length_drop] at this
      simp at this
      omega
    have hdroplen : (B.drop (B.length - B.length % p)).length ≤ p := by
      rw [List.length_drop]
      have := Nat.mod_lt B.length hp
      omega
    conv_rhs => rw [← List.take_append_drop (B.length - B.length % p) B]
    rw [chunksOf_append p hp _ _ hdvd,
      chunksOf_singleton p hp _ hdropne hdroplen]

theorem parts_hpNorm_pad (p : Nat) (hp : 0 < p) (B : List Byte)
    (hB : B.length % p = 0) :
    ({ hpNorm p B with cur := some [] } : HashParts).parts =
      chunksOf p B ++ [[]] := by
  rw [HashParts.parts]
  have : (hpNorm p B).done = chunksOf p B := by
    rw [hpNorm]
    simp [hB]
  simp [this]

/-! ## S3Hasher (`s3_hasher.go`)

`S3Hasher.write` feeds every byte to the whole-body hash and to the
per-part hasher (and, identically in structure, to their MD5 twins,
covered here by quantifying over the digest function `dg`). -/

structure S3Hasher where
  /-- bytes absorbed by the whole-body hash (`hr.full_algo`). -/
  full_algo : List Byte
  /-- the per-part hasher (`hr.algo_parts`). -/
  algo_parts : HashParts
deriving Repr, DecidableEq

/-- `NewS3Hasher`. -/
def s3HasherInit (partSize : Nat) : S3Hasher :=
  { full_algo := [], algo_parts := hashPartsInit partSize }

/-- `S3Hasher.write`: `hr.full_algo.Write(b); hr.algo_parts.Write(b)`. -/
def S3Hasher.write (s : S3Hasher) (b : List Byte) : S3Hasher :=
  { full_algo := s.full_algo ++ b, algo_parts := s.algo_parts.write b }

def S3Hasher.writeAll (s : S3Hasher) (ws : List (List Byte)) : S3Hasher :=
  ws.foldl S3Hasher.write s

theorem s3HasherWriteAll_full (p : Nat) (ws : List (List Byte)) :
    ∀ s : S3Hasher, (s.writeAll ws).full_algo = s.full_algo ++ ws.flatten := by
  induction ws with
  | nil => intro s; simp [S3Hasher.writeAll]
  | cons w ws ih =>
    intro s
    show (S3Hasher.writeAll (s.write w) ws).full_algo = _
    rw [ih (s.write w), S3Hasher.write, List.flatten_cons]
    simp

theorem s3HasherWriteAll_parts (p : Nat) (ws : List (List Byte)) :
    ∀ s : S3Hasher,
      (s.writeAll ws).algo_parts = s.algo_parts.writeAll ws := by
  induction ws with
  | nil => intro s; simp [S3Hasher.writeAll, HashParts.writeAll]
  | cons w ws ih =>
    intro s
    show (S3Hasher.writeAll (s.write w) ws).algo_parts = _
    rw [ih (s.write w)]
    rfl

/-- C4 helper: with non-empty chunks the whole hasher state is canonical. -/
theorem s3HasherWriteAll_norm (p : Nat) (hp : 0 < p)
    (ws : List (List Byte)) (hws : ∀ w ∈ ws, w ≠ []) :
    (s3HasherInit p).writeAll ws =
      { full_algo := ws.flatten, algo_parts := hpNorm p ws.flatten } := by
  have h1 := s3HasherWriteAll_full p ws (s3HasherInit p)
  have h2 := s3HasherWriteAll_parts p ws (s3HasherInit p)
  have h3 := writeAll_norm p hp ws hws
  cases hs : (s3HasherInit p).writeAll ws with
  | mk f a =>
    rw [hs] at h1 h2
    simp only at h1 h2
    rw [S3Hasher.mk.injEq]
    constructor
    · rw [h1]
      simp [s3HasherInit]
    · rw [h2]
      show (s3HasherInit p).algo_parts.writeAll ws = _
      rw [show (s3HasherInit p).algo_parts = hashPartsInit p from rfl, h3]

theorem chunksOf_ne_nil (p : Nat) (l : List α) (hl : l ≠ []) :
    chunksOf p l ≠ [] := by
  match l with
  | [] => exact absurd rfl hl
  | a :: as =>
    rw [chunksOf]
    simp

theorem chunksOf_nil_of_eq_nil (p : Nat) (l : List α)
    (h : chunksOf p l = []) : l = [] := by
  by_contra hne
  exact chunksOf_ne_nil p l hne h

/-- Every chunk but the last is full. -/
theorem chunksOf_full_of_not_last (p : Nat) (hp : 0 < p) (l : List α) :
    ∀ i (hlt : i < (chunksOf p l).length),
      i + 1 < (chunksOf p l).length → ((chunksOf p l)[i]).length = p := by
  induction l using chunksOf.induct p with
  | case1 => intro i hlt hi; simp [chunksOf_nil] at hi
  | case2 a as ih =>
    intro i hlt hi
    simp only [chunksOf_eq_cons p hp (a :: as) (by simp),
      drop_cons_of_pos p hp] at hlt hi ⊢
    rcases i with _ | i
    · simp only [List.getElem_cons_zero]
      simp only [List.length_cons] at hi
      have hne : as.drop (p - 1) ≠ [] := by
        intro h
        rw [h, chunksOf_nil] at hi
        simp at hi
      have : p - 1 < as.length := by
        by_contra hcon
        exact hne (List.drop_eq_nil_of_le (by omega))
      rw [List.length_take]
      simp only [List.length_cons]
      omega
    · simp only [List.getElem_cons_succ]
      simp only [List.length_cons] at hlt hi
      exact ih i (by omega) (by omega)

/-- When the length is a multiple of `p`, the chunk count times `p`
recovers the length. -/
theorem chunksOf_count_mul (p : Nat) (hp : 0 < p) (l : List α)
    (hl : p ∣ l.length) : (chunksOf p l).length * p = l.length := by
  have hmap : (chunksOf p l).map List.length =
      List.replicate (chunksOf p l).length p := by
    rw [List.eq_replicate_iff]
    refine ⟨by simp, ?_⟩
    intro b hb
    obtain ⟨c, hc, rfl⟩ := List.mem_map.1 hb
    exact chunksOf_full_mem p hp l hl c hc
  have hsum : ((chunksOf p l).map List.length).sum = l.length := by
    rw [← List.length_flatten, chunksOf_flatten p hp]
  rw [hmap, List.sum_replicate, smul_eq_mul] at hsum
  exact hsum

/-- C4: the MultiPartHasher's observable outputs depend only on the
concatenated bytes and the part size, not on the write boundaries.  For
any two sequences of (non-empty) writes with the same concatenation, the
full-body digest, the composite `sumOfSums`, the part count, and every
per-part digest and per-part size agree.  Quantifying over the digest
function `dg` covers both the configured algorithm and the parallel MD5
hasher. -/
theorem hasher_chunking_independence
    (p : Nat) (dg : List Byte → List Byte) (ws1 ws2 : List (List Byte))
    (hp : 0 < p)
    (h1 : ∀ w ∈ ws1, w ≠ []) (h2 : ∀ w ∈ ws2, w ≠ [])
    (hflat : ws1.flatten = ws2.flatten) :
    dg ((s3HasherInit p).writeAll ws1).full_algo =
      dg ((s3HasherInit p).writeAll ws2).full_algo ∧
    ((s3HasherInit p).writeAll ws1).algo_parts.sumOfSums dg =
      ((s3HasherInit p).writeAll ws2).algo_parts.sumOfSums dg ∧
    ((s3HasherInit p).writeAll ws1).algo_parts.count =
      ((s3HasherInit p).writeAll ws2).algo_parts.count ∧
    (∀ i, ((s3HasherInit p).writeAll ws1).algo_parts.sumAt dg i =
      ((s3HasherInit p).writeAll ws2).algo_parts.sumAt dg i) ∧
    (∀ i, ((s3HasherInit p).writeAll ws1).algo_parts.partSizeAt i =
      ((s3HasherInit p).writeAll ws2).algo_parts.partSizeAt i) := by
  have e : (s3HasherInit p).writeAll ws1 = (s3HasherInit p).writeAll ws2 := by
    rw [s3HasherWriteAll_norm p hp ws1 h1,
      s3HasherWriteAll_norm p hp ws2 h2, hflat]
  rw [e]
  exact ⟨rfl, rfl, rfl, fun _ => rfl, fun _ => rfl⟩

/-- Witness for `hasher_chunking_independence` at `p = 2`,
`ws1 = [[1,2,3]]`, `ws2 = [[1],[2,3]]`. -/
theorem hasher_chunking_independence_w :
    ([[1,2,3]] : List (List Byte)).flatten =
      ([[1],[2,3]] : List (List Byte)).flatten ∧
    (∀ i, ((s3HasherInit 2).writeAll [[1,2,3]]).algo_parts.partSizeAt i =
      ((s3HasherInit 2).writeAll [[1],[2,3]]).algo_parts.partSizeAt i) :=
  ⟨by decide,
    (hasher_chunking_independence 2 (fun l => l) [[1,2,3]] [[1],[2,3]]
      (by decide) (by decide) (by decide) (by decide)).2.2.2.2⟩

/-- C9: after any sequence of `Write` calls, the per-part byte counts sum
to the total number of bytes written, each per-part digest is the digest
of exactly the bytes routed to that part (the `i`-th `partSize`-aligned
window of the concatenated input), and every part except possibly the
last holds exactly `partSize` bytes (writes crossing a part boundary are
split exactly at `partSize`). -/
theorem hasher_partition_invariants
    (p : Nat) (dg : List Byte → List Byte) (ws : List (List Byte))
    (hp : 0 < p) :
    ((((s3HasherInit p).writeAll ws).algo_parts.parts.map List.length).sum =
      (ws.map List.length).sum) ∧
    (∀ i, 1 ≤ i → i ≤ ((s3HasherInit p).writeAll ws).algo_parts.count →
      ((s3HasherInit p).writeAll ws).algo_parts.sumAt dg i =
        dg ((ws.flatten.drop ((i - 1) * p)).take p)) ∧
    (∀ i, 1 ≤ i → i < ((s3HasherInit p).writeAll ws).algo_parts.count →
      ((s3HasherInit p).writeAll ws).algo_parts.partSizeAt i = p) := by
  have hws_sum : (ws.map List.length).sum = ws.flatten.length :=
    (List.length_flatten ws).symm
  have hreach : Reach p ws.flatten ((s3HasherInit p).writeAll ws).algo_parts := by
    rw [s3HasherWriteAll_parts p ws (s3HasherInit p)]
    exact reach_writeAll_init p hp ws
  rcases hreach with hcase | ⟨hB0, hcase⟩
  · -- canonical state: the parts are exactly the canonical chunking
    have hpe : ((s3HasherInit p).writeAll ws).algo_parts.parts =
        chunksOf p ws.flatten := by
      rw [hcase, parts_hpNorm p hp]
    have hcount : ((s3HasherInit p).writeAll ws).algo_parts.count =
        (chunksOf p ws.flatten).length := by
      rw [HashParts.count, hpe]
    refine ⟨?_, ?_, ?_⟩
    · rw [hpe, ← List.length_flatten, chunksOf_flatten p hp, hws_sum]
    · intro i h1 h2
      rw [hcount] at h2
      have hidx : i - 1 < (chunksOf p ws.flatten).length := by omega
      rw [HashParts.sumAt, hpe, List.getD_eq_getElem _ _ hidx,
        chunksOf_getElem p hp ws.flatten (i - 1) hidx]
    · intro i h1 h2
      rw [hcount] at h2
      have hidx : (i - 1) + 1 < (chunksOf p ws.flatten).length := by omega
      rw [HashParts.partSizeAt, hpe,
        List.getD_eq_getElem _ _ (by omega)]
      exact chunksOf_full_of_not_last p hp ws.flatten (i - 1) (by omega) hidx
  · -- boundary state with a trailing empty part
    have hpe : ((s3HasherInit p).writeAll ws).algo_parts.parts =
        chunksOf p ws.flatten ++ [[]] := by
      rw [hcase, parts_hpNorm_pad p hp ws.flatten hB0]
    have hcount : ((s3HasherInit p).writeAll ws).algo_parts.count =
        (chunksOf p ws.flatten).length + 1 := by
      rw [HashParts.count, hpe]
      simp
    have hdvd : p ∣ ws.flatten.length := Nat.dvd_of_mod_eq_zero hB0
    have hmul : (chunksOf p ws.flatten).length * p = ws.flatten.length :=
      chunksOf_count_mul p hp ws.flatten hdvd
    refine ⟨?_, ?_, ?_⟩
    · rw [hpe, List.map_append, List.sum_append, ← List.length_flatten,
        chunksOf_flatten p hp, hws_sum]
      simp
    · intro i h1 h2
      rw [hcount] at h2
      have hidx : i - 1 < (chunksOf p ws.flatten).length + 1 := by omega
      rw [HashParts.sumAt, hpe,
        List.getD_eq_getElem _ _ (by simp; omega)]
      by_cases hlt : i - 1 < (chunksOf p ws.flatten).length
      · rw [List.getElem_append_left hlt,
          chunksOf_getElem p hp ws.flatten (i - 1) hlt]
      · have hieq : i - 1 = (chunksOf p ws.flatten).length := by omega
        rw [List.getElem_append_right (by omega)]
        have hdrop : ws.flatten.drop ((i - 1) * p) = [] := by
          rw [hieq, hmul, List.drop_length]
        rw [hdrop]
        simp [hieq]
    · intro i h1 h2
      rw [hcount] at h2
      have hidx : i - 1 < (chunksOf p ws.flatten).length := by omega
      rw [HashParts.partSizeAt, hpe,
        List.getD_eq_getElem _ _ (by simp; omega),
        List.getElem_append_left hidx]
      exact chunksOf_full_mem p hp ws.flatten hdvd _ (List.getElem_mem hidx)

/-- Witness for `hasher_partition_invariants` at `p = 2`,
`ws = [[1,2,3],[4]]`. -/
theorem hasher_partition_invariants_w :
    ((((s3HasherInit 2).writeAll [[1,2,3],[4]]).algo_parts.parts.map
        List.length).sum =
      (([[1,2,3],[4]] : List (List Byte)).map List.length).sum) ∧
    (∀ i, 1 ≤ i → i <
        ((s3HasherInit 2).writeAll [[1,2,3],[4]]).algo_parts.count →
      ((s3HasherInit 2).writeAll [[1,2,3],[4]]).algo_parts.partSizeAt i = 2) :=
  ⟨(hasher_partition_invariants 2 (fun l => l) [[1,2,3],[4]] (by decide)).1,
    (hasher_partition_invariants 2 (fun l => l) [[1,2,3],[4]] (by decide)).2.2⟩

/-! ## Completion assembly (`s3_hasher.go`, `S3UploadState.completeParts`)

`completeParts` ranges over the `uploadPartOutputs` map (collecting one
`CompletedPart` per recorded part id, in arbitrary map order), sorts them
by part number with `slices.SortFunc`/`cmp.Compare`, and then runs the
density check `for i := 1; i < len(completedParts); i++`.  The recorded
ids are the distinct keys of a map, modelled as a list of integers. -/

/-- A Go `error` value, represented by its message. -/
abbrev Err := String

/-- Insertion into an ascending list (model of `slices.SortFunc` with
`cmp.Compare` on the part numbers; the ids are distinct map keys, so
stability does not matter). -/
def insertAsc (x : Int) : List Int → List Int
  | [] => [x]
  | y :: ys => if x ≤ y then x :: y :: ys else y :: insertAsc x ys

def sortAsc (l : List Int) : List Int := l.foldr insertAsc []

/-- The density-check loop of `completeParts` (`s3_hasher.go` lines
325-343): `for i := 1; i < len(completedParts); i++` compares the part
number at position `i` with `i+1` and errors on a mismatch.  The Go loop
body contains an `i == 0` branch for its error message, but the loop
starts at `i = 1`, so position 0 is never checked.  The Go messages carry
the offending positions; the model keeps the fixed prefix of the message
text. -/
def cpLoop : Nat → List Int → Option Err
  | _, [] => none
  | i, x :: xs =>
      if x ≠ (i + 1 : Int) then some "out-of-order partID"
      else cpLoop (i + 1) xs

/-- `completeParts` restricted to its decision content: sort the recorded
part ids, run the density check (positions `1, 2, …` of the sorted list,
i.e. `cpLoop` starting at index 1 on the tail), and on success return the
part numbers of the assembled `CompleteMultipartUploadInput` in request
order. -/
def completeParts (ids : List Int) : Except Err (List Int) :=
  let sorted := sortAsc ids
  match cpLoop 1 (sorted.drop 1) with
  | some e => .error e
  | none => .ok sorted

/-- C1 (code bug): with recorded part ids `{2}` the density check never
examines position 0 (the loop starts at `i = 1`), so `completeParts`
succeeds and a `CompleteMultipartUpload` wire call is issued for the
single part numbered 2 — the claimed "out-of-order partID" error is not
returned.  Dense id sets are accepted and the spec's non-dense example
`{1,2,4}` is rejected, so the slip is confined to the unchecked first
position (the dead `i == 0` branch in the source shows the intent to
check it). -/
theorem completeParts_accepts_gap :
    completeParts [2] = .ok [2] ∧
    completeParts [1, 2, 3] = .ok [1, 2, 3] ∧
    completeParts [1, 2, 4] = .error "out-of-order partID" := by
  refine ⟨?_, ?_, ?_⟩ <;> rfl

/-! ## Part id counter (`s3_upload_parts.go`, `NextPartID`) -/

/-- `ErrMaxPartID` (`s3_upload_parts.go` line 119). -/
def errMaxPartID : Err := "partID limit reached"

/-- `NextPartID` (`s3_upload_parts.go` lines 148-159): under the mutex,
if `lastPartID == MaxPartID` return `(0, ErrMaxPartID)` without touching
the counter; otherwise increment and return the new id.  The fields are
`int32`; `MaxPartID.Set` admits only `1 ≤ n ≤ DefaultMaxPartID`, and the
counter stops at `MaxPartID`, so the arithmetic never overflows and plain
integers model it exactly.  Returns `((id, error), new lastPartID)`. -/
def nextPartID (maxPartID lastPartID : Int) : (Int × Option Err) × Int :=
  if lastPartID = maxPartID then ((0, some errMaxPartID), lastPartID)
  else ((lastPartID + 1, none), lastPartID + 1)

/-- The counter after `k` calls (it starts at zero). -/
def nextPartIDIter (maxPartID : Int) : Nat → Int
  | 0 => 0
  | k + 1 => (nextPartID maxPartID (nextPartIDIter maxPartID k)).2

/-- The result of the `k`-th call, 1-indexed. -/
def nextPartIDCall (maxPartID : Int) (k : Nat) : Int × Option Err :=
  (nextPartID maxPartID (nextPartIDIter maxPartID (k - 1))).1

theorem nextPartIDIter_below (m : Int) :
    ∀ k : Nat, (k : Int) ≤ m → nextPartIDIter m k = (k : Int) := by
  intro k
  induction k with
  | zero => intro _; rfl
  | succ n ih =>
    intro h
    have hn : (n : Int) ≤ m := by push_cast at h ⊢; omega
    have hlt : (n : Int) ≠ m := by push_cast at h ⊢; omega
    show (nextPartID m (nextPartIDIter m n)).2 = _
    rw [ih hn, nextPartID, if_neg hlt]
    push_cast
    ring

theorem nextPartIDIter_above (m : Int) (hm : 0 ≤ m) :
    ∀ k : Nat, m ≤ (k : Int) → nextPartIDIter m k = m := by
  intro k
  induction k with
  | zero =>
    intro h
    have : m = 0 := by push_cast at h; omega
    rw [this]; rfl
  | succ n ih =>
    intro h
    show (nextPartID m (nextPartIDIter m n)).2 = _
    by_cases hn : m ≤ (n : Int)
    · rw [ih hn, nextPartID, if_pos rfl]
    · have heq : m = ((n : Int) + 1) := by push_cast at h ⊢; omega
      rw [nextPartIDIter_below m n (by omega), nextPartID,
        if_neg (by omega)]
      simp [heq]

/-- C8: with a cap `1 ≤ maxPartId` the first `maxPartId` calls to
`NextPartID` return the consecutive ids `1, 2, …, maxPartId` with no
error; every later call returns `(0, ErrMaxPartID)` and leaves the
counter at `maxPartId`, so repeated calls keep returning the same
error. -/
theorem nextPartID_cap (m : Int) (hm : 1 ≤ m) :
    (∀ k : Nat, 1 ≤ k → (k : Int) ≤ m →
      nextPartIDCall m k = ((k : Int), none)) ∧
    (∀ k : Nat, m < (k : Int) →
      nextPartIDCall m k = (0, some errMaxPartID) ∧
        nextPartIDIter m k = m) := by
  constructor
  · intro k hk hkm
    rw [nextPartIDCall, nextPartIDIter_below m (k - 1)
      (by push_cast [Nat.cast_sub hk] at hkm ⊢; omega)]
    rw [nextPartID, if_neg (by push_cast [Nat.cast_sub hk] at hkm ⊢; omega)]
    push_cast [Nat.cast_sub hk]
    rw [sub_add_cancel]
  · intro k hk
    have hk1 : 1 ≤ k := by
      by_contra h
      interval_cases k
      · push_cast at hk
        omega
    have hiter : nextPartIDIter m (k - 1) = m := by
      apply nextPartIDIter_above m (by omega) (k - 1)
      push_cast [Nat.cast_sub hk1] at hk ⊢
      omega
    constructor
    · rw [nextPartIDCall, hiter, nextPartID, if_pos rfl]
    · have : k = (k - 1) + 1 := by omega
      rw [this]
      show (nextPartID m (nextPartIDIter m (k - 1))).2 = m
      rw [hiter, nextPartID, if_pos rfl]

/-- Witness for `nextPartID_cap` at `maxPartId = 2`: the second call
returns id 2 and the third call the cap error with the counter parked. -/
theorem nextPartID_cap_w :
    nextPartIDCall 2 2 = ((2 : Int), none) ∧
    nextPartIDCall 2 3 = (0, some errMaxPartID) ∧
    nextPartIDIter 2 3 = 2 := by
  refine ⟨(nextPartID_cap 2 (by norm_num)).1 2 (by norm_num) (by norm_num),
    ((nextPartID_cap 2 (by norm_num)).2 3 (by norm_num)).1,
    ((nextPartID_cap 2 (by norm_num)).2 3 (by norm_num)).2⟩

/-! ## Error aggregation (`s3_hasher.go` `S3UploadState.Errors`,
`s3_uploader.go` `Uploader.upload`) -/

/-- The wrapped errors produced by `S3UploadState.Errors` via
`fmt.Errorf("...: %w", err)`, by operation category. -/
inductive UpErr where
  | putObject (e : Err)
  | uploadPart (partID : Int) (e : Err)
  | complete (e : Err)
  | abort (e : Err)
deriving Repr, DecidableEq

/-- The error-relevant fields of `S3UploadState` (`s3_hasher.go` lines
223-246).  `uploadPartErrors` is the `map[int32]error` in iteration
order; a `none` value is a recorded nil error (a successful part). -/
structure UploadStateErrs where
  objError : Option Err
  uploadPartErrors : List (Int × Option Err)
  completedError : Option Err
  abortedError : Option Err
  objectAttributesError : Option Err
deriving Repr, DecidableEq

/-- `S3UploadState.Errors` (`s3_hasher.go` lines 248-274): collect
`objError`, every non-nil `uploadPartErrors` entry, `completedError` and
`abortedError`, each wrapped with its category.  The function does not
read `objectAttributesError`. -/
def UploadStateErrs.errorsList (st : UploadStateErrs) : List UpErr :=
  (match st.objError with
   | some e => [UpErr.putObject e]
   | none => [])
  ++ (st.uploadPartErrors.filterMap fun kv =>
        match kv.2 with
        | some e => some (UpErr.uploadPart kv.1 e)
        | none => none)
  ++ (match st.completedError with
      | some e => [UpErr.complete e]
      | none => [])
  ++ (match st.abortedError with
      | some e => [UpErr.abort e]
      | none => [])

/-- `errors.Join`: `nil` when there are no (non-nil) errors, otherwise
the joined list. -/
def joinErrors (l : List UpErr) : Option (List UpErr) :=
  if l = [] then none else some l

/-- The final result `errors.Join(s3multi.st.Errors()...)` returned by
`Uploader.upload` once `Wait` has succeeded (`s3_uploader.go` line
399). -/
def uploadFinalResult (st : UploadStateErrs) : Option (List UpErr) :=
  joinErrors st.errorsList

/-- The five per-operation categories named by the claim, including the
attributes fetch. -/
inductive UpErrSpec where
  | putObject (e : Err)
  | uploadPart (partID : Int) (e : Err)
  | complete (e : Err)
  | abort (e : Err)
  | attributes (e : Err)
deriving Repr, DecidableEq

/-- The error list as the claim describes it ("all non-nil per-operation
errors … PutObjectError, UploadPartError[i], CompleteMultipartUploadError,
AbortMultipartUploadError, and GetObjectAttributesError"); written from
the claim's words for comparison with `UploadStateErrs.errorsList`,
which is translated from the source. -/
def UploadStateErrs.errorsListSpec (st : UploadStateErrs) : List UpErrSpec :=
  (match st.objError with
   | some e => [UpErrSpec.putObject e]
   | none => [])
  ++ (st.uploadPartErrors.filterMap fun kv =>
        match kv.2 with
        | some e => some (UpErrSpec.uploadPart kv.1 e)
        | none => none)
  ++ (match st.completedError with
      | some e => [UpErrSpec.complete e]
      | none => [])
  ++ (match st.abortedError with
      | some e => [UpErrSpec.abort e]
      | none => [])
  ++ (match st.objectAttributesError with
      | some e => [UpErrSpec.attributes e]
      | none => [])

/-- C2 counterexample: in the state whose only non-nil recorded error is
`objectAttributesError`, the claim's join of the five categories is
non-empty, yet the final result of the upload is `nil` — `Errors` omits
the attributes-fetch category. -/
theorem uploadFinalResult_attrs_cex :
    uploadFinalResult
        ⟨none, [], none, none, some "attrs fetch failed"⟩ = none ∧
      UploadStateErrs.errorsListSpec
        ⟨none, [], none, none, some "attrs fetch failed"⟩ ≠ [] := by
  exact ⟨rfl, by decide⟩

/-- C2 amended: after a successful `Wait` the final result of the upload
is the join of the non-nil recorded errors in the four categories
put-object, upload-part (per part index), complete-multipart-upload and
abort-multipart-upload; `objectAttributesError` is recorded in the state
but excluded from the join.  In particular the result is `nil` exactly
when those four categories hold no error, irrespective of the
attributes-fetch error. -/
theorem uploadFinalResult_join (st : UploadStateErrs) :
    (uploadFinalResult st = none ↔
      (st.objError = none ∧
        (∀ kv ∈ st.uploadPartErrors, kv.2 = none) ∧
        st.completedError = none ∧
        st.abortedError = none)) ∧
    uploadFinalResult { st with objectAttributesError := none } =
      uploadFinalResult st := by
  constructor
  · rw [uploadFinalResult, joinErrors]
    by_cases h : st.errorsList = []
    · rw [if_pos h]
      rw [UploadStateErrs.errorsList] at h
      simp only [List.append_eq_nil, List.filterMap_eq_nil] at h
      obtain ⟨⟨⟨h1, h2⟩, h3⟩, h4⟩ := h
      constructor
      · intro _
        refine ⟨?_, ?_, ?_, ?_⟩
        · cases ho : st.objError with
          | none => rfl
          | some e => rw [ho] at h1; simp at h1
        · intro kv hkv
          have := h2 kv hkv
          cases hv : kv.2 with
          | none => rfl
          | some e => rw [hv] at this; simp at this
        · cases ho : st.completedError with
          | none => rfl
          | some e => rw [ho] at h3; simp at h3
        · cases ho : st.abortedError with
          | none => rfl
          | some e => rw [ho] at h4; simp at h4
      · intro _
        rfl
    · rw [if_neg h]
      constructor
      · intro hc
        exact absurd hc (by simp)
      · intro ⟨h1, h2, h3, h4⟩
        exfalso
        apply h
        rw [UploadStateErrs.errorsList, h1, h3, h4]
        simp only [List.append_nil, List.nil_append, List.append_eq_nil]
        rw [List.filterMap_eq_nil]
        intro kv hkv
        rw [h2 kv hkv]
  · rfl

/-! ## PartSlice close semantics (`source.go`)

The three `SourceReader` closers: the random-access view installs
`func() error { return nil }`; `tempfBuffer.Close` closes the `os.File`
and then (deferred) removes it, returning the close's error;
`memBuffer.Close` returns the pooled buffer on the first call only.
`os.File.Close` reports an error when the file was already closed
(`os.ErrClosed`), and `os.Remove` fails once the name is gone; the
`closeCount`/`removeCount`/`puts` fields count the operations that
actually released the resource. -/

structure TempFile where
  closed : Bool
  removed : Bool
  closeCount : Nat
  removeCount : Nat
deriving Repr, DecidableEq

/-- `os.File.Close`: errors on a second call. -/
def fileClose (f : TempFile) : TempFile × Option Err :=
  if f.closed then (f, some "file already closed")
  else ({ f with closed := true, closeCount := f.closeCount + 1 }, none)

/-- `os.Remove`: errors when the file no longer exists. -/
def fileRemove (f : TempFile) : TempFile × Option Err :=
  if f.removed then (f, some "no such file or directory")
  else ({ f with removed := true, removeCount := f.removeCount + 1 }, none)

/-- `tempfBuffer.Close` (`source.go` lines 241-244):
`defer os.Remove(p.fh.Name()); return p.fh.Close()` — the remove runs
after the close, its error is discarded, and the close's result is
returned. -/
def tempfBufferClose (f : TempFile) : TempFile × Option Err :=
  let r1 := fileClose f
  let r2 := fileRemove r1.1
  (r2.1, r1.2)

/-- The buffer owned by a `memBuffer`, plus the number of `bp.Put`
calls it has made. -/
structure MemBuffer where
  b : Option (List Byte)
  puts : Nat
deriving Repr, DecidableEq

/-- `memBuffer.Close` (`source.go` lines 311-317): return the buffer to
the pool only when still held (`p.b != nil`), then clear it; always
return `nil`. -/
def memBufferClose (m : MemBuffer) : MemBuffer × Option Err :=
  match m.b with
  | some _ => ({ b := none, puts := m.puts + 1 }, none)
  | none => (m, none)

/-- The closer installed by `readerAtSource.Next` (`source.go` line
158): `func() error { return nil }`; there is no backing resource. -/
def readerAtClose : Option Err := none

/-- C3 counterexample: for the temp-file spool, the second `Close` of a
freshly produced `PartSlice` returns the file's already-closed error,
not `nil` as claimed. -/
theorem tempf_double_close_cex :
    (tempfBufferClose (tempfBufferClose ⟨false, false, 0, 0⟩).1).2 =
      some "file already closed" := by decide

/-- C3 amended: across two `Close` calls on a fresh `PartSlice` every
variant releases its backing resource at most once (the temp file is
closed and removed exactly once, the pooled buffer is returned exactly
once, the random-access view holds no resource), and the second close
returns no error for the random-access and memory variants — but for
the temp-file variant it returns the file's already-closed error. -/
theorem partSlice_close_released_once (buf : List Byte) :
    (memBufferClose ⟨some buf, 0⟩).2 = none ∧
    (memBufferClose (memBufferClose ⟨some buf, 0⟩).1).2 = none ∧
    (memBufferClose (memBufferClose ⟨some buf, 0⟩).1).1.puts = 1 ∧
    readerAtClose = none ∧
    (tempfBufferClose ⟨false, false, 0, 0⟩).2 = none ∧
    (tempfBufferClose (tempfBufferClose ⟨false, false, 0, 0⟩).1).2 ≠ none ∧
    (tempfBufferClose (tempfBufferClose ⟨false, false, 0, 0⟩).1).1.closeCount
      = 1 ∧
    (tempfBufferClose (tempfBufferClose ⟨false, false, 0, 0⟩).1).1.removeCount
      = 1 := by
  refine ⟨rfl, rfl, rfl, rfl, rfl, by decide, rfl, rfl⟩

/-! ## Part sources (`source.go`: `readerAtSource.Next`,
`tempfSource.Next`, `memSource.Next`)

The underlying sequential `io.Reader` is modelled as a stream of bytes
followed by a terminal condition: each `Read` into a buffer of size `k`
delivers up to `k` of the pending bytes, and once they are exhausted it
returns `(0, io.EOF)` or `(0, err)` for a non-EOF error.  The spool
loops drain the reader through an `io.LimitReader`, so a `Next` call's
observable result depends only on the byte stream and the terminal
condition, not on the reader's per-call granularity. -/

/-- Terminal condition of the modelled reader. -/
inductive REnd where
  | eof
  | other (e : Err)
deriving Repr, DecidableEq

/-- The modelled `io.Reader`. -/
structure Rdr where
  pending : List Byte
  fin : REnd
deriving Repr, DecidableEq

/-- A `Next` result `(sr, err)`: an optional part slice (given by its
bytes) and an optional error, `some .eof` being the `io.EOF` sentinel. -/
abbrev NextRes := Option (List Byte) × Option REnd

/-- `readerAtSource` (`source.go` lines 139-144): direct positional
access to the input, whose bytes are `data` (`limit` is `data.length`,
obtained by `seekLimit`). -/
structure ReaderAtSrc where
  data : List Byte
  offset : Nat
  partSize : Nat
deriving Repr, DecidableEq

/-- `readerAtSource.Next` (`source.go` lines 146-164): at or past the
limit return `(nil, io.EOF)`; otherwise return a section of
`min(partSize, limit-offset)` bytes at `offset` and advance. -/
def readerAtNext (s : ReaderAtSrc) : NextRes × ReaderAtSrc :=
  if s.data.length ≤ s.offset then ((none, some .eof), s)
  else
    let size :=
      if s.data.length < s.offset + s.partSize then s.data.length - s.offset
      else s.partSize
    ((some ((s.data.drop s.offset).take size), none),
      { s with offset := s.offset + size })

/-- The copy loop of `memSource.Next` (`source.go` lines 267-279): read
from `io.LimitReader(p.r, partSize)` into a `copyBufSize` chunk and
append to the pooled buffer; the loop breaks on ANY read error (the
error's kind is not inspected).  Each productive iteration consumes at
least one pending byte, so `fuel = pending.length` reproduces the Go
loop.  Returns the spooled bytes and the reader's remaining pending
bytes. -/
def memSpool (cb : Nat) : Nat → Nat → List Byte → List Byte →
    List Byte × List Byte
  | _, _, [], acc => (acc, [])
  | 0, _, pend, acc => (acc, pend)
  | fuel + 1, limit, b :: bs, acc =>
      if limit = 0 then (acc, b :: bs)
      else
        let n := min cb (min limit (b :: bs).length)
        memSpool cb fuel (limit - n) ((b :: bs).drop n)
          (acc ++ (b :: bs).take n)

/-- `memSource.Next` (`source.go` lines 254-298): spool up to `partSize`
bytes into a pooled buffer; if nothing was read return `(nil, io.EOF)`
(returning the buffer to the pool), otherwise return the buffer-backed
slice with no error — a non-EOF read failure has been discarded by the
loop. -/
def memNext (cb p : Nat) (r : Rdr) : NextRes × Rdr :=
  let s := memSpool cb r.pending.length p r.pending []
  if s.1 = [] then ((none, some .eof), ⟨s.2, r.fin⟩)
  else ((some s.1, none), ⟨s.2, r.fin⟩)

/-- The copy loop of `tempfSource.Next` (`source.go` lines 190-206):
like `memSpool`, but a non-EOF read error aborts the call (the temp
file is closed and removed) and is returned. -/
def tempfSpool (cb : Nat) (fin : REnd) : Nat → Nat → List Byte →
    List Byte → Except Err (List Byte) × List Byte
  | _, 0, pend, acc => (.ok acc, pend)
  | _, _, [], acc =>
      (match fin with
       | .eof => (.ok acc, [])
       | .other e => (.error e, []))
  | 0, _, pend, acc => (.ok acc, pend)
  | fuel + 1, limit, b :: bs, acc =>
      let n := min cb (min limit (b :: bs).length)
      tempfSpool cb fin fuel (limit - n) ((b :: bs).drop n)
        (acc ++ (b :: bs).take n)

/-- `tempfSource.Next` (`source.go` lines 173-229): spool up to
`partSize` bytes into a fresh temp file; a non-EOF read error removes
the file and is returned with no slice; if nothing was spooled the file
is removed and `(nil, io.EOF)` returned; otherwise the rewound
file-backed slice is returned with no error. -/
def tempfNext (cb p : Nat) (r : Rdr) : NextRes × Rdr :=
  match tempfSpool cb r.fin r.pending.length p r.pending [] with
  | (.error e, rest) => ((none, some (.other e)), ⟨rest, r.fin⟩)
  | (.ok acc, rest) =>
      if acc = [] then ((none, some .eof), ⟨rest, r.fin⟩)
      else ((some acc, none), ⟨rest, r.fin⟩)

/-- Iterating `next()` until the EOF sentinel, collecting the slices;
the boolean records whether EOF was reached within `fuel` calls with no
other error. -/
def drainSrc {σ : Type} (nx : σ → NextRes × σ) :
    Nat → σ → List (List Byte) × Bool
  | 0, _ => ([], false)
  | fuel + 1, s =>
      match nx s with
      | ((some sl, _), s') =>
          let d := drainSrc nx fuel s'
          (sl :: d.1, d.2)
      | ((none, some .eof), _) => ([], true)
      | ((none, _), _) => ([], false)

theorem memSpool_spec (cb : Nat) (hcb : 0 < cb) :
    ∀ (fuel limit : Nat) (pend acc : List Byte), pend.length ≤ fuel →
      memSpool cb fuel limit pend acc =
        (acc ++ pend.take limit, pend.drop limit) := by
  intro fuel
  induction fuel with
  | zero =>
    intro limit pend acc hlen
    have : pend = [] := List.length_eq_zero.1 (Nat.le_zero.1 hlen)
    subst this
    simp [memSpool]
  | succ f ih =>
    intro limit pend acc hlen
    match pend with
    | [] => simp [memSpool]
    | b :: bs =>
      rw [memSpool]
      by_cases hl : limit = 0
      · rw [if_pos hl, hl]
        simp
      · rw [if_neg hl]
        set n := min cb (min limit (b :: bs).length) with hn
        clear_value n
        have hn1 : 1 ≤ n := by
          rw [hn]
          exact le_min hcb (le_min (by omega) (by simp))
        have hnlim : n ≤ limit := by
          rw [hn]
          exact le_trans (min_le_right _ _) (min_le_left _ _)
        have hdl : ((b :: bs).drop n).length ≤ f := by
          rw [List.length_drop]
          omega
        have harg : n + (limit - n) = limit := by omega
        rw [ih (limit - n) _ _ hdl]
        rw [List.append_assoc, ← List.take_add (l := b :: bs)]
        rw [List.drop_drop, harg]

theorem tempfSpool_eof_spec (cb : Nat) (hcb : 0 < cb) :
    ∀ (fuel limit : Nat) (pend acc : List Byte), pend.length ≤ fuel →
      tempfSpool cb .eof fuel limit pend acc =
        (.ok (acc ++ pend.take limit), pend.drop limit) := by
  intro fuel
  induction fuel with
  | zero =>
    intro limit pend acc hlen
    have : pend = [] := List.length_eq_zero.1 (Nat.le_zero.1 hlen)
    subst this
    match limit with
    | 0 => simp [tempfSpool]
    | _ + 1 => simp [tempfSpool]
  | succ f ih =>
    intro limit pend acc hlen
    match limit, pend with
    | 0, pend => simp [tempfSpool]
    | l + 1, [] => simp [tempfSpool]
    | l + 1, b :: bs =>
      rw [tempfSpool]
      set n := min cb (min (l + 1) (b :: bs).length) with hn
      clear_value n
      have hn1 : 1 ≤ n := by
        rw [hn]
        exact le_min hcb (le_min (by omega) (by simp))
      have hnlim : n ≤ l + 1 := by
        rw [hn]
        exact le_trans (min_le_right _ _) (min_le_left _ _)
      have hdl : ((b :: bs).drop n).length ≤ f := by
        rw [List.length_drop]
        omega
      have harg : n + (l + 1 - n) = l + 1 := by omega
      rw [ih (l + 1 - n) _ _ hdl]
      rw [List.append_assoc, ← List.take_add (l := b :: bs)]
      rw [List.drop_drop, harg]
      omega

theorem memNext_spec (cb p : Nat) (hcb : 0 < cb) (r : Rdr) :
    memNext cb p r =
      if r.pending.take p = [] then
        ((none, some .eof), ⟨r.pending.drop p, r.fin⟩)
      else
        ((some (r.pending.take p), none), ⟨r.pending.drop p, r.fin⟩) := by
  rw [memNext, memSpool_spec cb hcb r.pending.length p r.pending [] le_rfl]
  simp

theorem tempfNext_eof_spec (cb p : Nat) (hcb : 0 < cb) (pend : List Byte) :
    tempfNext cb p ⟨pend, .eof⟩ =
      if pend.take p = [] then
        ((none, some .eof), ⟨pend.drop p, .eof⟩)
      else
        ((some (pend.take p), none), ⟨pend.drop p, .eof⟩) := by
  rw [tempfNext]
  simp only []
  rw [tempfSpool_eof_spec cb hcb pend.length p pend [] le_rfl]
  simp

theorem drain_readerAt (p : Nat) (hp : 0 < p) :
    ∀ (fuel : Nat) (s : ReaderAtSrc), s.partSize = p →
      s.data.length - s.offset < fuel →
      (drainSrc readerAtNext fuel s).2 = true ∧
      (drainSrc readerAtNext fuel s).1.flatten = s.data.drop s.offset := by
  intro fuel
  induction fuel with
  | zero => intro s _ h; omega
  | succ f ih =>
    intro s hps h
    by_cases hend : s.data.length ≤ s.offset
    · have hnx : readerAtNext s = ((none, some .eof), s) := by
        rw [readerAtNext, if_pos hend]
      rw [drainSrc, hnx]
      exact ⟨rfl, (List.drop_eq_nil_of_le hend).symm⟩
    · have hsz : 0 < (if s.data.length < s.offset + s.partSize then
          s.data.length - s.offset else s.partSize) := by
        split <;> omega
      have hnx : readerAtNext s =
          ((some ((s.data.drop s.offset).take
              (if s.data.length < s.offset + s.partSize then
                s.data.length - s.offset else s.partSize)), none),
            { s with offset := s.offset +
              (if s.data.length < s.offset + s.partSize then
                s.data.length - s.offset else s.partSize) }) := by
        rw [readerAtNext, if_neg hend]
      set sz := if s.data.length < s.offset + s.partSize then
        s.data.length - s.offset else s.partSize with hszdef
      have hih := ih { s with offset := s.offset + sz } (by simpa using hps)
        (by simp only []; omega)
      rw [drainSrc, hnx]
      simp only []
      refine ⟨hih.1, ?_⟩
      rw [List.flatten_cons, hih.2]
      simp only []
      rw [← List.drop_drop, List.take_append_drop]

theorem drain_mem (cb p : Nat) (hcb : 0 < cb) (hp : 0 < p) :
    ∀ (fuel : Nat) (pend : List Byte), pend.length < fuel →
      (drainSrc (memNext cb p) fuel ⟨pend, .eof⟩).2 = true ∧
      (drainSrc (memNext cb p) fuel ⟨pend, .eof⟩).1.flatten = pend := by
  intro fuel
  induction fuel with
  | zero => intro pend h; omega
  | succ f ih =>
    intro pend h
    by_cases hpe : pend = []
    · subst hpe
      have hnx : memNext cb p ⟨[], .eof⟩ =
          ((none, some .eof), ⟨[], .eof⟩) := by
        rw [memNext_spec cb p hcb]
        simp
      rw [drainSrc, hnx]
      exact ⟨rfl, rfl⟩
    · have htk : pend.take p ≠ [] := by
        intro hc
        rcases (List.take_eq_nil_iff).1 hc with h0 | h0
        · omega
        · exact hpe h0
      have hnx : memNext cb p ⟨pend, .eof⟩ =
          ((some (pend.take p), none), ⟨pend.drop p, .eof⟩) := by
        rw [memNext_spec cb p hcb]
        simp only []
        rw [if_neg htk]
      have hih := ih (pend.drop p) (by
        rw [List.length_drop]
        have : 0 < pend.length := List.length_pos.2 hpe
        omega)
      rw [drainSrc, hnx]
      simp only []
      refine ⟨hih.1, ?_⟩
      rw [List.flatten_cons, hih.2, List.take_append_drop]

theorem drain_tempf (cb p : Nat) (hcb : 0 < cb) (hp : 0 < p) :
    ∀ (fuel : Nat) (pend : List Byte), pend.length < fuel →
      (drainSrc (tempfNext cb p) fuel ⟨pend, .eof⟩).2 = true ∧
      (drainSrc (tempfNext cb p) fuel ⟨pend, .eof⟩).1.flatten = pend := by
  intro fuel
  induction fuel with
  | zero => intro pend h; omega
  | succ f ih =>
    intro pend h
    by_cases hpe : pend = []
    · subst hpe
      have hnx : tempfNext cb p ⟨[], .eof⟩ =
          ((none, some .eof), ⟨[], .eof⟩) := by
        rw [tempfNext_eof_spec cb p hcb]
        simp
      rw [drainSrc, hnx]
      exact ⟨rfl, rfl⟩
    · have htk : pend.take p ≠ [] := by
        intro hc
        rcases (List.take_eq_nil_iff).1 hc with h0 | h0
        · omega
        · exact hpe h0
      have hnx : tempfNext cb p ⟨pend, .eof⟩ =
          ((some (pend.take p), none), ⟨pend.drop p, .eof⟩) := by
        rw [tempfNext_eof_spec cb p hcb, if_neg htk]
      have hih := ih (pend.drop p) (by
        rw [List.length_drop]
        have : 0 < pend.length := List.length_pos.2 hpe
        omega)
      rw [drainSrc, hnx]
      simp only []
      refine ⟨hih.1, ?_⟩
      rw [List.flatten_cons, hih.2, List.take_append_drop]

/-- C5: for each of the three `Source` variants, iterating `Next` until
the `io.EOF` sentinel returns slices whose concatenation is exactly the
input bytes; an empty input yields EOF on the first call; and a call
that returns EOF never also yields a slice. -/
theorem source_completeness (cb p : Nat) (hcb : 0 < cb) (hp : 0 < p)
    (data : List Byte) :
    ((drainSrc readerAtNext (data.length + 1) ⟨data, 0, p⟩).2 = true ∧
      (drainSrc readerAtNext (data.length + 1) ⟨data, 0, p⟩).1.flatten =
        data) ∧
    ((drainSrc (tempfNext cb p) (data.length + 1) ⟨data, .eof⟩).2 = true ∧
      (drainSrc (tempfNext cb p) (data.length + 1) ⟨data, .eof⟩).1.flatten =
        data) ∧
    ((drainSrc (memNext cb p) (data.length + 1) ⟨data, .eof⟩).2 = true ∧
      (drainSrc (memNext cb p) (data.length + 1) ⟨data, .eof⟩).1.flatten =
        data) ∧
    (data = [] →
      (readerAtNext ⟨data, 0, p⟩).1 = (none, some .eof) ∧
      (tempfNext cb p ⟨data, .eof⟩).1 = (none, some .eof) ∧
      (memNext cb p ⟨data, .eof⟩).1 = (none, some .eof)) ∧
    (∀ s : ReaderAtSrc, (readerAtNext s).1.2 = some .eof →
      (readerAtNext s).1.1 = none) ∧
    (∀ r : Rdr, (tempfNext cb p r).1.2 = some .eof →
      (tempfNext cb p r).1.1 = none) ∧
    (∀ r : Rdr, (memNext cb p r).1.2 = some .eof →
      (memNext cb p r).1.1 = none) := by
  refine ⟨?_, ?_, ?_, ?_, ?_, ?_, ?_⟩
  · exact drain_readerAt p hp (data.length + 1) ⟨data, 0, p⟩ rfl
      (by simp)
  · exact drain_tempf cb p hcb hp (data.length + 1) data (by omega)
  · exact drain_mem cb p hcb hp (data.length + 1) data (by omega)
  · intro hd
    subst hd
    refine ⟨?_, ?_, ?_⟩
    · rw [readerAtNext]
      simp
    · rw [tempfNext_eof_spec cb p hcb]
      simp
    · rw [memNext_spec cb p hcb]
      simp
  · intro s hs
    rw [readerAtNext] at hs ⊢
    by_cases hend : s.data.length ≤ s.offset
    · rw [if_pos hend]
    · rw [if_neg hend] at hs
      simp at hs
  · intro r hs
    rw [tempfNext] at hs ⊢
    rcases hsp : tempfSpool cb r.fin r.pending.length p r.pending [] with
      ⟨res, rest⟩
    simp only [hsp] at hs ⊢
    match res with
    | .error e =>
      simp at hs
    | .ok acc =>
      by_cases ha : acc = []
      · simp [ha]
      · simp [ha] at hs
  · intro r hs
    rw [memNext] at hs ⊢
    by_cases ha : (memSpool cb r.pending.length p r.pending []).1 = []
    · simp [ha]
    · simp [ha] at hs

/-- Witness for `source_completeness` at `cb = 1`, `p = 2`,
`data = [9, 8, 7]`. -/
theorem source_completeness_w :
    (drainSrc readerAtNext 4 ⟨[9, 8, 7], 0, 2⟩).1.flatten = [9, 8, 7] ∧
    (drainSrc (tempfNext 1 2) 4 ⟨[9, 8, 7], .eof⟩).1.flatten = [9, 8, 7] ∧
    (drainSrc (memNext 1 2) 4 ⟨[9, 8, 7], .eof⟩).1.flatten = [9, 8, 7] :=
  ⟨(source_completeness 1 2 (by decide) (by decide) [9, 8, 7]).1.2,
    (source_completeness 1 2 (by decide) (by decide) [9, 8, 7]).2.1.2,
    (source_completeness 1 2 (by decide) (by decide) [9, 8, 7]).2.2.1.2⟩

/-- C10: the memory-spool `Next` never returns an error other than the
EOF sentinel.  When the underlying reader fails with a non-EOF error
after delivering some bytes, `Next` discards the error and returns a
slice holding only the bytes read before the failure (truncated to
`partSize`); when the reader fails before delivering any byte, `Next`
returns the EOF sentinel. -/
theorem memNext_swallows_errors (cb p : Nat) (hcb : 0 < cb) (hp : 0 < p)
    (e : Err) (pend : List Byte) :
    (∀ r : Rdr, (memNext cb p r).1.2 = none ∨
      (memNext cb p r).1.2 = some .eof) ∧
    (pend ≠ [] → (memNext cb p ⟨pend, .other e⟩).1 =
      (some (pend.take p), none)) ∧
    (memNext cb p ⟨[], .other e⟩).1 = (none, some .eof) := by
  refine ⟨?_, ?_, ?_⟩
  · intro r
    rw [memNext_spec cb p hcb]
    by_cases ha : r.pending.take p = []
    · rw [if_pos ha]
      right
      rfl
    · rw [if_neg ha]
      left
      rfl
  · intro hpe
    have htk : pend.take p ≠ [] := by
      intro hc
      rcases (List.take_eq_nil_iff).1 hc with h0 | h0
      · omega
      · exact hpe h0
    rw [memNext_spec cb p hcb, if_neg htk]
  · rw [memNext_spec cb p hcb]
    simp

/-- Witness for `memNext_swallows_errors` at `cb = 1`, `p = 2`,
reader bytes `[3]` followed by a non-EOF failure. -/
theorem memNext_swallows_errors_w :
    (memNext 1 2 ⟨[3], .other "read failure"⟩).1 = (some [3], none) ∧
    (memNext 1 2 ⟨[], .other "read failure"⟩).1 = (none, some .eof) :=
  ⟨(memNext_swallows_errors 1 2 (by decide) (by decide) "read failure"
      [3]).2.1 (by decide),
    (memNext_swallows_errors 1 2 (by decide) (by decide) "read failure"
      [3]).2.2⟩

/-! ## Object dispatcher (`s3_uploader.go`, `Uploader.upload`)

The dispatch loop is modelled over the observable behaviour of the
`Source`: a list of part slices followed by the EOF sentinel (each slice
non-empty and at most `partSize` bytes, as every variant guarantees).
`io.CopyBuffer` feeds each slice to the `S3HashWriter` as a sequence of
non-empty chunk writes; by `writeAll_norm` the hasher state after the
first slice is `hpNorm partSize s1` for every such chunking, so the model
hashes the slice in a single write.  The loop's `peeked` read-ahead is
expressed by matching on the remaining slices: the peeked pair is
consumed by the very next iteration. -/

inductive UploadOutcome where
  /-- immediate EOF with `s3multi == nil`: a zero-length part is written
  into the hasher and `PutObject` issued with an empty body. -/
  | putEmpty
  /-- `putObject` on the single slice. -/
  | putSingle (body : List Byte)
  /-- `CreateMultipartUpload` followed by `UploadPart` submissions of
  `(partID, bytes)` in submission order, then `Wait`/`CompleteUpload`. -/
  | multi (parts : List (Int × List Byte))
  /-- `NextPartID` exhausted (`upload` returns the error). -/
  | errMaxPart
deriving Repr, DecidableEq

/-- The loop iterations once `s3multi` is initialized (the tail of
`upload`'s `for` loop, `s3_uploader.go` lines 363-385): each slice
obtains the next part id and is submitted; on `ErrMaxPartID` the upload
returns the error. -/
def uploadParts (maxId : Int) (lastId : Int)
    (acc : List (Int × List Byte)) : List (List Byte) → UploadOutcome
  | [] => .multi acc
  | s :: rest =>
      if lastId = maxId then .errMaxPart
      else uploadParts maxId (lastId + 1) (acc ++ [(lastId + 1, s)]) rest

/-- `Uploader.upload` (`s3_uploader.go` lines 274-399), routed on the
slice sequence: empty input goes to an empty `PutObject`; after hashing
the first slice, `PartSize(1) < partSize` routes it through `PutObject`;
otherwise the second slice is peeked and `(nil, io.EOF)` also routes to
`PutObject`; any other peek initializes the multi-part session, and the
first, peeked, and all subsequent slices are submitted as parts. -/
def uploadGo (p : Nat) (maxId : Int) (slices : List (List Byte)) :
    UploadOutcome :=
  match slices with
  | [] => .putEmpty
  | s1 :: rest =>
      let h1 := (s3HasherInit p).write s1
      if h1.algo_parts.partSizeAt 1 < p then .putSingle s1
      else
        match rest with
        | [] => .putSingle s1
        | s2 :: rest2 => uploadParts maxId 0 [] (s1 :: s2 :: rest2)

/-- Part ids `k, k+1, …` paired with the slices in order. -/
def numberedFrom (k : Int) : List (List Byte) → List (Int × List Byte)
  | [] => []
  | s :: rest => (k, s) :: numberedFrom (k + 1) rest

theorem partSizeAt_one (p : Nat) (hp : 0 < p) (s1 : List Byte)
    (hne : s1 ≠ []) (hlen : s1.length ≤ p) :
    ((s3HasherInit p).write s1).algo_parts.partSizeAt 1 = s1.length := by
  have h1 : ((s3HasherInit p).write s1).algo_parts =
      (hashPartsInit p).write s1 := rfl
  have h2 : hashPartsInit p = hpNorm p [] := by
    rw [hashPartsInit, hpNorm]
    simp [chunksOf_nil]
  have h3 : (hashPartsInit p).write s1 = hpNorm p s1 := by
    rw [h2, write_norm p hp [] s1 hne]
    simp
  rw [HashParts.partSizeAt, h1, h3, parts_hpNorm p hp,
    chunksOf_singleton p hp s1 hne hlen]
  rfl

theorem uploadParts_all (maxId : Int) :
    ∀ (slices : List (List Byte)) (lastId : Int)
      (acc : List (Int × List Byte)),
      lastId + slices.length ≤ maxId →
      uploadParts maxId lastId acc slices =
        .multi (acc ++ numberedFrom (lastId + 1) slices) := by
  intro slices
  induction slices with
  | nil =>
    intro lastId acc _
    simp [uploadParts, numberedFrom]
  | cons s rest ih =>
    intro lastId acc hcap
    rw [uploadParts, if_neg (by
      simp only [List.length_cons] at hcap
      push_cast at hcap
      omega)]
    rw [ih (lastId + 1) (acc ++ [(lastId + 1, s)]) (by
      simp only [List.length_cons] at hcap
      push_cast at hcap ⊢
      omega)]
    rw [numberedFrom, List.append_assoc]
    rfl

/-- C6: after hashing the first slice, the upload is routed through a
single `PutObject` iff the first slice is strictly smaller than
`partSize` or the read-ahead for a second slice returns the EOF
sentinel; otherwise a multi-part upload is created and the first,
second, and all subsequent slices are submitted as parts numbered
`1, 2, …` in order.  (An immediate EOF gives the empty-body
`PutObject`.) -/
theorem upload_dispatch (p : Nat) (maxId : Int) (hp : 0 < p)
    (s1 : List Byte) (rest : List (List Byte))
    (hs1ne : s1 ≠ []) (hs1len : s1.length ≤ p)
    (hcap : ((s1 :: rest).length : Int) ≤ maxId) :
    (uploadGo p maxId [] = .putEmpty) ∧
    (s1.length < p → uploadGo p maxId (s1 :: rest) = .putSingle s1) ∧
    (rest = [] → uploadGo p maxId (s1 :: rest) = .putSingle s1) ∧
    (s1.length = p → rest ≠ [] →
      uploadGo p maxId (s1 :: rest) =
        .multi (numberedFrom 1 (s1 :: rest))) := by
  refine ⟨rfl, ?_, ?_, ?_⟩
  · intro hlt
    rw [uploadGo.eq_def]
    simp only [partSizeAt_one p hp s1 hs1ne hs1len]
    rw [if_pos hlt]
  · intro hrest
    subst hrest
    rw [uploadGo.eq_def]
    simp only [partSizeAt_one p hp s1 hs1ne hs1len]
    by_cases hlt : s1.length < p
    · rw [if_pos hlt]
    · rw [if_neg hlt]
  · intro heq hrest
    obtain ⟨s2, rest2, hrr⟩ := List.exists_cons_of_ne_nil hrest
    subst hrr
    rw [uploadGo.eq_def]
    simp only [partSizeAt_one p hp s1 hs1ne hs1len]
    rw [if_neg (by omega)]
    rw [uploadParts_all maxId (s1 :: s2 :: rest2) 0 [] (by
      simp only [List.length_cons] at hcap ⊢
      push_cast at hcap ⊢
      omega)]
    simp

/-- Witness for `upload_dispatch` at `p = 2`, `maxId = 100`,
first slice `[1,2]`, second slice `[3]`. -/
theorem upload_dispatch_w :
    uploadGo 2 100 [[1, 2], [3]] =
      .multi [(1, [1, 2]), (2, [3])] :=
  (upload_dispatch 2 100 (by decide) [1, 2] [[3]] (by decide) (by decide)
      (by norm_num)).2.2.2 (by decide) (by decide)

/-! ## Object key normalizer (`S3Key`, `src/unnamed/part_001`)

Keys are byte lists.  `utf8.DecodeRune`, `utf8.AppendRune`,
`utf8.ValidString`, `unicode.IsControl` and `url.PathEscape` are
modelled from their Go standard library semantics (Go bit masks such as
`b &^ 0xC0` appear as `%`/`/` by constants).  Loops that advance by the
decoded rune width take a fuel argument; every productive iteration
consumes at least one byte, so `fuel = length` reproduces the Go loop,
and the definitions stay structurally recursive (hence evaluable). -/

/-- `utf8.RuneError` (U+FFFD). -/
def runeError : Nat := 0xFFFD

/-- The two-byte case of `DecodeRune` (first byte `0xC2..0xDF`). -/
def dec2 (b0 : Nat) : List Nat → Nat × Nat
  | b1 :: _ =>
      if 0x80 ≤ b1 ∧ b1 ≤ 0xBF then ((b0 % 32) * 64 + b1 % 64, 2)
      else (runeError, 1)
  | [] => (runeError, 1)

/-- The accept range for the second byte of a three-byte encoding
(Go `acceptRanges`): depends on the first byte, excluding overlong
forms and surrogates. -/
def range3 (b0 b1 : Nat) : Prop :=
  if b0 = 0xE0 then 0xA0 ≤ b1 ∧ b1 ≤ 0xBF
  else if b0 = 0xED then 0x80 ≤ b1 ∧ b1 ≤ 0x9F
  else 0x80 ≤ b1 ∧ b1 ≤ 0xBF

instance (b0 b1 : Nat) : Decidable (range3 b0 b1) := by
  unfold range3
  infer_instance

/-- The accept range for the second byte of a four-byte encoding:
depends on the first byte, excluding overlong forms and values above
U+10FFFF. -/
def range4 (b0 b1 : Nat) : Prop :=
  if b0 = 0xF0 then 0x90 ≤ b1 ∧ b1 ≤ 0xBF
  else if b0 = 0xF4 then 0x80 ≤ b1 ∧ b1 ≤ 0x8F
  else 0x80 ≤ b1 ∧ b1 ≤ 0xBF

instance (b0 b1 : Nat) : Decidable (range4 b0 b1) := by
  unfold range4
  infer_instance

/-- The three-byte case of `DecodeRune` (first byte `0xE0..0xEF`). -/
def dec3 (b0 : Nat) : List Nat → Nat × Nat
  | b1 :: b2 :: _ =>
      if range3 b0 b1 ∧ 0x80 ≤ b2 ∧ b2 ≤ 0xBF then
        ((b0 % 16) * 4096 + (b1 % 64) * 64 + b2 % 64, 3)
      else (runeError, 1)
  | [_] => (runeError, 1)
  | [] => (runeError, 1)

/-- The four-byte case of `DecodeRune` (first byte `0xF0..0xF4`). -/
def dec4 (b0 : Nat) : List Nat → Nat × Nat
  | b1 :: b2 :: b3 :: _ =>
      if range4 b0 b1 ∧ (0x80 ≤ b2 ∧ b2 ≤ 0xBF) ∧
          (0x80 ≤ b3 ∧ b3 ≤ 0xBF) then
        ((b0 % 8) * 262144 + (b1 % 64) * 4096 + (b2 % 64) * 64 + b3 % 64, 4)
      else (runeError, 1)
  | [_, _] => (runeError, 1)
  | [_] => (runeError, 1)
  | [] => (runeError, 1)

/-- Go `utf8.DecodeRune` on a byte list: `(rune, width)`.  Returns
`(RuneError, 0)` on empty input and `(RuneError, 1)` on an invalid
encoding: a stray continuation or overlong start byte, a missing or
out-of-range continuation byte (the per-first-byte ranges exclude
overlong forms, surrogates and values above U+10FFFF), or a byte above
`0xF4`. -/
def decodeRune : List Nat → Nat × Nat
  | [] => (runeError, 0)
  | b0 :: rest =>
    if b0 < 0x80 then (b0, 1)
    else if b0 < 0xC2 then (runeError, 1)
    else if b0 ≤ 0xDF then dec2 b0 rest
    else if b0 ≤ 0xEF then dec3 b0 rest
    else if b0 ≤ 0xF4 then dec4 b0 rest
    else (runeError, 1)

/-- Go `unicode.IsControl`: the Cc category, i.e. U+0000–U+001F and
U+007F–U+009F. -/
def isControl (r : Nat) : Bool :=
  r ≤ 0x1F || (0x7F ≤ r && r ≤ 0x9F)

/-- Go `utf8.AppendRune` (the bytes appended for rune `r`): the
canonical UTF-8 encoding, with surrogates and out-of-range values
encoded as `RuneError`. -/
def encodeRune (r : Nat) : List Nat :=
  if r < 0x80 then [r]
  else if r < 0x800 then [0xC0 + r / 64, 0x80 + r % 64]
  else if 0xD800 ≤ r ∧ r ≤ 0xDFFF then [0xEF, 0xBF, 0xBD]
  else if r < 0x10000 then
    [0xE0 + r / 4096, 0x80 + (r / 64) % 64, 0x80 + r % 64]
  else if r ≤ 0x10FFFF then
    [0xF0 + r / 262144, 0x80 + (r / 4096) % 64, 0x80 + (r / 64) % 64,
      0x80 + r % 64]
  else [0xEF, 0xBF, 0xBD]

/-- The width returned for a non-empty list is in 1..4 and never
exceeds the number of available bytes. -/
theorem decodeRune_w (b0 : Nat) (rest : List Nat) :
    1 ≤ (decodeRune (b0 :: rest)).2 ∧
      (decodeRune (b0 :: rest)).2 ≤ (b0 :: rest).length := by
  rw [decodeRune]
  split
  · simp
  · split
    · simp
    · split
      · match rest with
        | [] => simp [dec2]
        | b1 :: t => rw [dec2]; split <;> simp
      · split
        · match rest with
          | [] => simp [dec3]
          | [b1] => simp [dec3]
          | b1 :: b2 :: t => rw [dec3]; split <;> (try split) <;> (try split) <;> simp
        · split
          · match rest with
            | [] => simp [dec4]
            | [b1] => simp [dec4]
            | [b1, b2] => simp [dec4]
            | b1 :: b2 :: b3 :: t => rw [dec4]; split <;> (try split) <;> (try split) <;> simp
          · simp

/-- Shape inversion: a successful decode (`r ≠ RuneError`) pins down the
leading bytes, the rune value and the width. -/
theorem decodeRune_shape (l : List Nat) (r w : Nat)
    (h : decodeRune l = (r, w)) (hr : ¬(r = runeError ∧ w = 1))
    (hl : l ≠ []) :
    (∃ b0 t, l = b0 :: t ∧ b0 < 0x80 ∧ r = b0 ∧ w = 1) ∨
    (∃ b0 b1 t, l = b0 :: b1 :: t ∧ 0xC2 ≤ b0 ∧ b0 ≤ 0xDF ∧
      0x80 ≤ b1 ∧ b1 ≤ 0xBF ∧ r = (b0 % 32) * 64 + b1 % 64 ∧ w = 2) ∨
    (∃ b0 b1 b2 t, l = b0 :: b1 :: b2 :: t ∧ 0xE0 ≤ b0 ∧ b0 ≤ 0xEF ∧
      range3 b0 b1 ∧ 0x80 ≤ b2 ∧ b2 ≤ 0xBF ∧
      r = (b0 % 16) * 4096 + (b1 % 64) * 64 + b2 % 64 ∧ w = 3) ∨
    (∃ b0 b1 b2 b3 t, l = b0 :: b1 :: b2 :: b3 :: t ∧ 0xF0 ≤ b0 ∧
      b0 ≤ 0xF4 ∧
      range4 b0 b1 ∧ 0x80 ≤ b2 ∧ b2 ≤ 0xBF ∧
      0x80 ≤ b3 ∧ b3 ≤ 0xBF ∧
      r = (b0 % 8) * 262144 + (b1 % 64) * 4096 + (b2 % 64) * 64 + b3 % 64 ∧
      w = 4) := by
  match l with
  | [] => exact absurd rfl hl
  | b0 :: rest =>
    rw [decodeRune] at h
    split at h
    · left
      rw [Prod.mk.injEq] at h
      obtain ⟨hv, hw⟩ := h
      exact ⟨b0, rest, rfl, by assumption, hv.symm, hw.symm⟩
    · split at h
      · rw [Prod.mk.injEq] at h
        exact absurd ⟨h.1.symm, h.2.symm⟩ hr
      · split at h
        · match rest with
          | [] =>
            rw [dec2, Prod.mk.injEq] at h
            exact absurd ⟨h.1.symm, h.2.symm⟩ hr
          | b1 :: t =>
            rw [dec2] at h
            split at h
            · rw [Prod.mk.injEq] at h
              obtain ⟨hv, hw⟩ := h
              right; left
              refine ⟨b0, b1, t, rfl, by omega, by assumption, ?_, ?_,
                hv.symm, hw.symm⟩ <;> omega
            · rw [Prod.mk.injEq] at h
              exact absurd ⟨h.1.symm, h.2.symm⟩ hr
        · split at h
          · match rest with
            | [] =>
              rw [dec3, Prod.mk.injEq] at h
              exact absurd ⟨h.1.symm, h.2.symm⟩ hr
            | [b1] =>
              rw [dec3, Prod.mk.injEq] at h
              exact absurd ⟨h.1.symm, h.2.symm⟩ hr
            | b1 :: b2 :: t =>
              rw [dec3] at h
              split at h
              · rw [Prod.mk.injEq] at h
                obtain ⟨hv, hw⟩ := h
                right; right; left
                refine ⟨b0, b1, b2, t, rfl, by omega, by assumption,
                  ?_, ?_, ?_, hv.symm, hw.symm⟩ <;> tauto
              · rw [Prod.mk.injEq] at h
                exact absurd ⟨h.1.symm, h.2.symm⟩ hr
          · split at h
            · match rest with
              | [] =>
                rw [dec4, Prod.mk.injEq] at h
                exact absurd ⟨h.1.symm, h.2.symm⟩ hr
              | [b1] =>
                rw [dec4, Prod.mk.injEq] at h
                exact absurd ⟨h.1.symm, h.2.symm⟩ hr
              | [b1, b2] =>
                rw [dec4, Prod.mk.injEq] at h
                exact absurd ⟨h.1.symm, h.2.symm⟩ hr
              | b1 :: b2 :: b3 :: t =>
                rw [dec4] at h
                split at h
                · rw [Prod.mk.injEq] at h
                  obtain ⟨hv, hw⟩ := h
                  right; right; right
                  refine ⟨b0, b1, b2, b3, t, rfl, by omega, by assumption,
                    ?_, ?_, ?_, ?_, ?_, hv.symm, hw.symm⟩ <;> tauto
                · rw [Prod.mk.injEq] at h
                  exact absurd ⟨h.1.symm, h.2.symm⟩ hr
            · rw [Prod.mk.injEq] at h
              exact absurd ⟨h.1.symm, h.2.symm⟩ hr

theorem decodeRune_of_shape1 (b0 : Nat) (t : List Nat) (h : b0 < 0x80) :
    decodeRune (b0 :: t) = (b0, 1) := by
  rw [decodeRune, if_pos h]

theorem decodeRune_of_shape2 (b0 b1 : Nat) (t : List Nat)
    (h0 : 0xC2 ≤ b0) (h0b : b0 ≤ 0xDF) (h1 : 0x80 ≤ b1) (h1b : b1 ≤ 0xBF) :
    decodeRune (b0 :: b1 :: t) = ((b0 % 32) * 64 + b1 % 64, 2) := by
  rw [decodeRune, if_neg (by omega), if_neg (by omega), if_pos h0b, dec2,
    if_pos ⟨h1, h1b⟩]

theorem decodeRune_of_shape3 (b0 b1 b2 : Nat) (t : List Nat)
    (h0 : 0xE0 ≤ b0) (h0b : b0 ≤ 0xEF) (h1 : range3 b0 b1)
    (h2 : 0x80 ≤ b2) (h2b : b2 ≤ 0xBF) :
    decodeRune (b0 :: b1 :: b2 :: t) =
      ((b0 % 16) * 4096 + (b1 % 64) * 64 + b2 % 64, 3) := by
  rw [decodeRune, if_neg (by omega), if_neg (by omega), if_neg (by omega),
    if_pos h0b, dec3, if_pos ⟨h1, h2, h2b⟩]

theorem decodeRune_of_shape4 (b0 b1 b2 b3 : Nat) (t : List Nat)
    (h0 : 0xF0 ≤ b0) (h0b : b0 ≤ 0xF4) (h1 : range4 b0 b1)
    (h2 : 0x80 ≤ b2) (h2b : b2 ≤ 0xBF) (h3 : 0x80 ≤ b3) (h3b : b3 ≤ 0xBF) :
    decodeRune (b0 :: b1 :: b2 :: b3 :: t) =
      ((b0 % 8) * 262144 + (b1 % 64) * 4096 + (b2 % 64) * 64 + b3 % 64,
        4) := by
  rw [decodeRune, if_neg (by omega), if_neg (by omega), if_neg (by omega),
    if_neg (by omega), if_pos h0b, dec4, if_pos ⟨h1, ⟨h2, h2b⟩, h3, h3b⟩]

/-- Master inversion for a successful decode: the decode is stable under
appending further bytes and under truncation to the consumed bytes, the
consumed bytes are the canonical encoding of the rune, and the width is
within bounds. -/
theorem decodeRune_invert (l t : List Nat) (r w : Nat)
    (h : decodeRune l = (r, w)) (hr : ¬(r = runeError ∧ w = 1))
    (hl : l ≠ []) :
    decodeRune (l ++ t) = (r, w) ∧ decodeRune (l.take w) = (r, w) ∧
      encodeRune r = l.take w ∧ 1 ≤ w ∧ w ≤ l.length := by
  rcases decodeRune_shape l r w h hr hl with
    ⟨b0, t0, rfl, hb, rfl, rfl⟩ |
    ⟨b0, b1, t0, rfl, h0, h0b, h1, h1b, rfl, rfl⟩ |
    ⟨b0, b1, b2, t0, rfl, h0, h0b, h1, h2, h2b, rfl, rfl⟩ |
    ⟨b0, b1, b2, b3, t0, rfl, h0, h0b, h1, h2, h2b, h3, h3b, rfl, rfl⟩
  · have ht : (r :: t0).take 1 = [r] := rfl
    refine ⟨decodeRune_of_shape1 r (t0 ++ t) hb, ?_, ?_, by omega, by simp⟩
    · rw [ht]
      exact decodeRune_of_shape1 r [] hb
    · rw [encodeRune, if_pos hb, ht]
  · have ht : (b0 :: b1 :: t0).take 2 = [b0, b1] := rfl
    refine ⟨decodeRune_of_shape2 b0 b1 (t0 ++ t) h0 h0b h1 h1b, ?_, ?_,
      by omega, by simp⟩
    · rw [ht]
      exact decodeRune_of_shape2 b0 b1 [] h0 h0b h1 h1b
    · rw [ht]
      rw [encodeRune, if_neg (by omega), if_pos (by omega)]
      have e1 : 0xC0 + ((b0 % 32) * 64 + b1 % 64) / 64 = b0 := by omega
      have e2 : 0x80 + ((b0 % 32) * 64 + b1 % 64) % 64 = b1 := by omega
      rw [e1, e2]
  · have hrange : 0x800 ≤ (b0 % 16) * 4096 + (b1 % 64) * 64 + b2 % 64 ∧
        (b0 % 16) * 4096 + (b1 % 64) * 64 + b2 % 64 < 0x10000 ∧
        ¬(0xD800 ≤ (b0 % 16) * 4096 + (b1 % 64) * 64 + b2 % 64 ∧
          (b0 % 16) * 4096 + (b1 % 64) * 64 + b2 % 64 ≤ 0xDFFF) := by
      unfold range3 at h1
      split at h1
      · omega
      · split at h1 <;> omega
    have hb1 : 0x80 ≤ b1 ∧ b1 ≤ 0xBF := by
      unfold range3 at h1
      split at h1
      · omega
      · split at h1 <;> omega
    have ht : (b0 :: b1 :: b2 :: t0).take 3 = [b0, b1, b2] := rfl
    refine ⟨decodeRune_of_shape3 b0 b1 b2 (t0 ++ t) h0 h0b h1 h2 h2b, ?_,
      ?_, by omega, by simp⟩
    · rw [ht]
      exact decodeRune_of_shape3 b0 b1 b2 [] h0 h0b h1 h2 h2b
    · rw [ht]
      rw [encodeRune, if_neg (by omega), if_neg (by omega),
        if_neg hrange.2.2, if_pos hrange.2.1]
      have e1 : 0xE0 + ((b0 % 16) * 4096 + (b1 % 64) * 64 + b2 % 64) / 4096
          = b0 := by omega
      have e2 : 0x80 +
          (((b0 % 16) * 4096 + (b1 % 64) * 64 + b2 % 64) / 64) % 64 = b1 := by
        omega
      have e3 : 0x80 + ((b0 % 16) * 4096 + (b1 % 64) * 64 + b2 % 64) % 64
          = b2 := by omega
      rw [e1, e2, e3]
  · have hrange : 0x10000 ≤
        (b0 % 8) * 262144 + (b1 % 64) * 4096 + (b2 % 64) * 64 + b3 % 64 ∧
        (b0 % 8) * 262144 + (b1 % 64) * 4096 + (b2 % 64) * 64 + b3 % 64 ≤
          0x10FFFF := by
      unfold range4 at h1
      split at h1
      · omega
      · split at h1 <;> omega
    have hb1 : 0x80 ≤ b1 ∧ b1 ≤ 0xBF := by
      unfold range4 at h1
      split at h1
      · omega
      · split at h1 <;> omega
    have ht : (b0 :: b1 :: b2 :: b3 :: t0).take 4 = [b0, b1, b2, b3] := rfl
    refine ⟨decodeRune_of_shape4 b0 b1 b2 b3 (t0 ++ t) h0 h0b h1 h2 h2b
      h3 h3b, ?_, ?_, by omega, by simp⟩
    · rw [ht]
      exact decodeRune_of_shape4 b0 b1 b2 b3 [] h0 h0b h1 h2 h2b h3 h3b
    · rw [ht]
      rw [encodeRune, if_neg (by omega), if_neg (by omega),
        if_neg (by omega), if_neg (by omega), if_pos hrange.2]
      have e1 : 0xF0 + ((b0 % 8) * 262144 + (b1 % 64) * 4096 +
          (b2 % 64) * 64 + b3 % 64) / 262144 = b0 := by omega
      have e2 : 0x80 + (((b0 % 8) * 262144 + (b1 % 64) * 4096 +
          (b2 % 64) * 64 + b3 % 64) / 4096) % 64 = b1 := by omega
      have e3 : 0x80 + (((b0 % 8) * 262144 + (b1 % 64) * 4096 +
          (b2 % 64) * 64 + b3 % 64) / 64) % 64 = b2 := by omega
      have e4 : 0x80 + ((b0 % 8) * 262144 + (b1 % 64) * 4096 +
          (b2 % 64) * 64 + b3 % 64) % 64 = b3 := by omega
      rw [e1, e2, e3, e4]

/-- A generic rune-by-rune scanner: fails as soon as `bad` holds of the
current suffix, otherwise advances by the decoded width.  Each step of
the Go loops it models consumes at least one byte, so `fuel = length`
reproduces them; the fuel-exhausted arm is unreachable. -/
def scanF (bad : List Nat → Bool) : Nat → List Nat → Bool
  | _, [] => true
  | 0, _ :: _ => true
  | fuel + 1, b :: rest =>
      if bad (b :: rest) then false
      else scanF bad fuel ((b :: rest).drop (decodeRune (b :: rest)).2)

/-- The failure test of Go `utf8.ValidString`: the current position does
not start a valid encoding (`DecodeRune` returned `(RuneError, 1)`). -/
def badValid (l : List Nat) : Bool :=
  (decodeRune l).1 == runeError && (decodeRune l).2 == 1

/-- Invalid encoding or a control rune: the complement of what the claim
allows in a returned key. -/
def badClean (l : List Nat) : Bool :=
  badValid l || isControl (decodeRune l).1

/-- The complement of the fast-path condition of the `S3Key` loop
(`r != utf8.RuneError && w != 0 && !unicode.IsControl(r)`; `w = 0` only
on empty input): a literal U+FFFD also fails it. -/
def badStrict (l : List Nat) : Bool :=
  (decodeRune l).1 == runeError || isControl (decodeRune l).1

/-- Go `utf8.ValidString`. -/
def validString (l : List Nat) : Bool := scanF badValid l.length l

/-- Valid UTF-8 containing no control characters (the property the claim
asserts of normalized keys). -/
def utf8Clean (l : List Nat) : Bool := scanF badClean l.length l

/-- Every position satisfies the fast-path condition of the `S3Key`
loop: valid UTF-8, no control characters, and no literal U+FFFD. -/
def utf8Strict (l : List Nat) : Bool := scanF badStrict l.length l

/-- The inner search of the `S3Key` loop (`part_001` lines 45-54):
scan forward for the first position whose suffix decodes to a valid
non-control rune; returns `(offset, rune, width)`. -/
def findValid : List Nat → Option (Nat × Nat × Nat)
  | [] => none
  | b :: rest =>
      if (decodeRune (b :: rest)).1 ≠ runeError ∧
          (decodeRune (b :: rest)).2 ≠ 0 ∧
          isControl (decodeRune (b :: rest)).1 = false then
        some (0, (decodeRune (b :: rest)).1, (decodeRune (b :: rest)).2)
      else
        match findValid rest with
        | some (i, r, w) => some (i + 1, r, w)
        | none => none

/-- The byte value of the uppercase hex digit for `n < 16`
(`"0123456789ABCDEF"[n]`). -/
def upperHexDigit (n : Nat) : Nat :=
  if n < 10 then 0x30 + n else 0x37 + n

/-- Go `url.PathEscape` unescaped set (`shouldEscape` with
`encodePathSegment`): alphanumerics, the marks `- _ . ~`, and the
sub-delims `$ & + : = @` stay; `/ ; , ?` and everything else is
percent-encoded. -/
def escapeByteOk (c : Nat) : Bool :=
  (0x41 ≤ c && c ≤ 0x5A) || (0x61 ≤ c && c ≤ 0x7A) ||
  (0x30 ≤ c && c ≤ 0x39) ||
  c == 0x2D || c == 0x5F || c == 0x2E || c == 0x7E ||
  c == 0x24 || c == 0x26 || c == 0x2B || c == 0x3A || c == 0x3D ||
  c == 0x40

/-- Go `url.PathEscape` over the raw bytes. -/
def pathEscape : List Nat → List Nat
  | [] => []
  | c :: rest =>
      (if escapeByteOk c then [c]
       else [0x25, upperHexDigit (c / 16), upperHexDigit (c % 16)]) ++
        pathEscape rest

/-- The rebuild loop of `S3Key` (`part_001` lines 28-63) over the
remaining input `p` and the output `x`: append the rune when the
fast-path condition holds; otherwise percent-encode up to the next valid
non-control rune (or the whole rest when there is none). -/
def s3keyLoopF : Nat → List Nat → List Nat → List Nat
  | _, [], x => x
  | 0, _ :: _, x => x
  | fuel + 1, b :: rest, x =>
      if (decodeRune (b :: rest)).1 ≠ runeError ∧
          (decodeRune (b :: rest)).2 ≠ 0 ∧
          isControl (decodeRune (b :: rest)).1 = false then
        s3keyLoopF fuel ((b :: rest).drop (decodeRune (b :: rest)).2)
          (x ++ encodeRune (decodeRune (b :: rest)).1)
      else
        match findValid (b :: rest) with
        | some (i, r, w) =>
            s3keyLoopF fuel ((b :: rest).drop (i + w))
              (x ++ pathEscape ((b :: rest).take i) ++ encodeRune r)
        | none => x ++ pathEscape (b :: rest)

/-- The `MAX_KEY_BYTES` limit. -/
def MAX_KEY_BYTES : Nat := 1024

/-- `S3Key` (`src/unnamed/part_001` lines 18-88): reject invalid UTF-8
up front when not encoding; rebuild the key; when not encoding, any
difference (a percent-encoded control character or invalid sequence)
is an error; finally the length limit applies to the encoded form.  On
success the rebuilt key is returned. -/
def S3Key (key : List Nat) (encode : Bool) : Except Err (List Nat) :=
  if ¬ encode ∧ validString key = false then
    .error "key is not valid UTF-8 and percent-encoding was not requested"
  else if ¬ encode ∧ s3keyLoopF key.length key [] ≠ key then
    .error
      "key contained control characters and percent-encoding was not requested"
  else if MAX_KEY_BYTES < (s3keyLoopF key.length key []).length then
    .error "key exceeds the maximum key length"
  else .ok (s3keyLoopF key.length key [])

theorem scanF_nil (bad : List Nat → Bool) (f : Nat) :
    scanF bad f [] = true := by
  cases f <;> rfl

/-- The scanners do not depend on the fuel, as long as it covers the
length. -/
theorem scanF_fuel (bad : List Nat → Bool) :
    ∀ (f1 : Nat) (f2 : Nat) (l : List Nat), l.length ≤ f1 →
      l.length ≤ f2 → scanF bad f1 l = scanF bad f2 l := by
  intro f1
  induction f1 with
  | zero =>
    intro f2 l h1 _
    have : l = [] := List.length_eq_zero.1 (Nat.le_zero.1 h1)
    subst this
    rw [scanF_nil, scanF_nil]
  | succ f ih =>
    intro f2 l h1 h2
    match l with
    | [] => rw [scanF_nil, scanF_nil]
    | b :: rest =>
      match f2 with
      | 0 => simp at h2
      | g + 1 =>
        rw [scanF, scanF]
        by_cases hb : bad (b :: rest)
        · rw [if_pos hb, if_pos hb]
        · rw [if_neg hb, if_neg hb]
          have hw := decodeRune_w b rest
          apply ih
          · rw [List.length_drop]
            simp only [List.length_cons] at h1 ⊢
            omega
          · rw [List.length_drop]
            simp only [List.length_cons] at h2 ⊢
            omega

/-- Monotonicity: a scan under a stronger failure test implies the scan
under a weaker one. -/
theorem scanF_mono (bad1 bad2 : List Nat → Bool)
    (himp : ∀ l, bad2 l = true → bad1 l = true) :
    ∀ (f : Nat) (l : List Nat), scanF bad1 f l = true →
      scanF bad2 f l = true := by
  intro f
  induction f with
  | zero =>
    intro l h
    match l with
    | [] => rw [scanF_nil]
    | b :: rest => rfl
  | succ f ih =>
    intro l h
    match l with
    | [] => rw [scanF_nil]
    | b :: rest =>
      rw [scanF] at h ⊢
      by_cases hb : bad2 (b :: rest)
      · rw [if_pos (himp _ hb)] at h
        simp at h
      · rw [if_neg hb]
        by_cases hb1 : bad1 (b :: rest)
        · rw [if_pos hb1] at h
          simp at h
        · rw [if_neg hb1] at h
          exact ih _ h

/-- What a successful inner search guarantees: the offset points at a
suffix decoding to a valid non-control rune. -/
theorem findValid_spec :
    ∀ (p : List Nat) (i r w : Nat), findValid p = some (i, r, w) →
      decodeRune (p.drop i) = (r, w) ∧ r ≠ runeError ∧ w ≠ 0 ∧
        isControl r = false ∧ i + w ≤ p.length := by
  intro p
  induction p with
  | nil => intro i r w h; rw [findValid] at h; cases h
  | cons b rest ih =>
    intro i r w h
    rw [findValid] at h
    split at h
    · rename_i hcond
      rcases hd : decodeRune (b :: rest) with ⟨r0, w0⟩
      rw [hd] at h hcond
      cases h
      refine ⟨by simpa using hd, hcond.1, hcond.2.1, hcond.2.2, ?_⟩
      have := decodeRune_w b rest
      rw [hd] at this
      simpa using this.2
    · rcases hf : findValid rest with _ | ⟨i2, r2, w2⟩
      · rw [hf] at h; cases h
      · rw [hf] at h
        cases h
        have hspec := ih i2 r w hf
        refine ⟨?_, hspec.2.1, hspec.2.2.1, hspec.2.2.2.1, ?_⟩
        · rw [List.drop_succ_cons]
          exact hspec.1
        · simp only [List.length_cons]
          have := hspec.2.2.2.2
          omega

/-- On a strict key the rebuild loop is the identity. -/
theorem s3keyLoopF_strict (fuel : Nat) :
    ∀ (l x : List Nat), l.length ≤ fuel →
      scanF badStrict l.length l = true →
      s3keyLoopF fuel l x = x ++ l := by
  induction fuel with
  | zero =>
    intro l x h1 _
    have : l = [] := List.length_eq_zero.1 (Nat.le_zero.1 h1)
    subst this
    simp [s3keyLoopF]
  | succ f ih =>
    intro l x h1 hstrict
    match l with
    | [] => simp [s3keyLoopF]
    | b :: rest =>
      simp only [List.length_cons] at hstrict
      rw [scanF] at hstrict
      by_cases hb : badStrict (b :: rest)
      · rw [if_pos hb] at hstrict
        simp at hstrict
      · rw [if_neg hb] at hstrict
        rcases hd : decodeRune (b :: rest) with ⟨r, w⟩
        rw [badStrict, hd] at hb
        simp only [Bool.or_eq_true, beq_iff_eq, not_or] at hb
        have hw := decodeRune_w b rest
        rw [hd] at hw hstrict
        simp only at hw hstrict
        have hcond : (decodeRune (b :: rest)).1 ≠ runeError ∧
            (decodeRune (b :: rest)).2 ≠ 0 ∧
            isControl (decodeRune (b :: rest)).1 = false := by
          rw [hd]
          refine ⟨hb.1, by omega, ?_⟩
          simpa using hb.2
        rw [s3keyLoopF, if_pos hcond, hd]
        have hinv := decodeRune_invert (b :: rest) [] r w hd
          (fun hc => hb.1 hc.1) (by simp)
        have hrec : scanF badStrict ((b :: rest).drop w).length
            ((b :: rest).drop w) = true := by
          rw [← hstrict]
          apply scanF_fuel
          · exact Nat.le_refl _
          · rw [List.length_drop]
            simp only [List.length_cons]
            omega
        rw [ih ((b :: rest).drop w) (x ++ encodeRune r) (by
          rw [List.length_drop]
          simp only [List.length_cons] at h1 ⊢
          omega) hrec]
        rw [List.append_assoc, hinv.2.2.1, List.take_append_drop]

/-- A scan that accepts a prefix and accepts the remainder accepts the
concatenation: clean strings are closed under append. -/
theorem scanF_clean_append :
    ∀ (f : Nat) (a b : List Nat), a.length ≤ f →
      scanF badClean a.length a = true → scanF badClean b.length b = true →
      scanF badClean (a ++ b).length (a ++ b) = true := by
  intro f
  induction f with
  | zero =>
    intro a b h1 _ hb
    have : a = [] := List.length_eq_zero.1 (Nat.le_zero.1 h1)
    subst this
    simpa using hb
  | succ f ih =>
    intro a b h1 ha hb
    match a with
    | [] => simpa using hb
    | c :: rest =>
      simp only [List.length_cons] at ha
      rw [scanF] at ha
      by_cases hbad : badClean (c :: rest)
      · rw [if_pos hbad] at ha
        simp at ha
      · rw [if_neg hbad] at ha
        rcases hd : decodeRune (c :: rest) with ⟨r, w⟩
        rw [hd] at ha
        simp only at ha
        rw [Bool.not_eq_true] at hbad
        have hnb : ¬(r = runeError ∧ w = 1) := by
          intro hc
          rw [badClean, badValid, hd] at hbad
          simp [hc.1, hc.2] at hbad
        have hinv := decodeRune_invert (c :: rest) b r w hd hnb (by simp)
        have hw1 : 1 ≤ w := hinv.2.2.2.1
        have hw2 : w ≤ (c :: rest).length := hinv.2.2.2.2
        simp only [List.cons_append, List.length_cons]
        rw [scanF]
        have hd2 : decodeRune (c :: (rest ++ b)) = (r, w) := by
          rw [← List.cons_append]
          exact hinv.1
        have hbad2 : badClean (c :: (rest ++ b)) = false := by
          rw [badClean, badValid, hd2]
          rw [badClean, badValid, hd] at hbad
          exact hbad
        rw [if_neg (by simp [hbad2]), hd2]
        show scanF badClean (rest ++ b).length ((c :: (rest ++ b)).drop w) =
          true
        have hdrop : (c :: (rest ++ b)).drop w = (c :: rest).drop w ++ b := by
          rw [← List.cons_append, List.drop_append_eq_append_drop]
          have hz : w - (c :: rest).length = 0 := by
            simp only [List.length_cons] at hw2 ⊢
            omega
          rw [hz, List.drop_zero]
        rw [hdrop]
        have h0 : scanF badClean ((c :: rest).drop w).length
            ((c :: rest).drop w) = true := by
          rw [← ha]
          apply scanF_fuel
          · exact Nat.le_refl _
          · rw [List.length_drop]
            simp only [List.length_cons]
            omega
        have hfl : scanF badClean (rest ++ b).length ((c :: rest).drop w ++ b)
            = scanF badClean ((c :: rest).drop w ++ b).length
              ((c :: rest).drop w ++ b) := by
          apply scanF_fuel
          · simp only [List.length_append, List.length_drop, List.length_cons]
            omega
          · exact Nat.le_refl _
        rw [hfl]
        apply ih ((c :: rest).drop w) b
        · rw [List.length_drop]
          simp only [List.length_cons] at h1 ⊢
          omega
        · exact h0
        · exact hb

/-- Clean strings are closed under append. -/
theorem utf8Clean_append (a b : List Nat) (ha : utf8Clean a = true)
    (hb : utf8Clean b = true) : utf8Clean (a ++ b) = true := by
  rw [utf8Clean] at ha hb ⊢
  exact scanF_clean_append a.length a b (Nat.le_refl _) ha hb

/-- A single accepted position whose width covers the whole string makes
the scan succeed. -/
theorem scanF_once (bad : List Nat → Bool) (b0 : Nat) (rest : List Nat)
    (hb : bad (b0 :: rest) = false)
    (hw : (b0 :: rest).length ≤ (decodeRune (b0 :: rest)).2) :
    scanF bad (b0 :: rest).length (b0 :: rest) = true := by
  simp only [List.length_cons] at hw ⊢
  rw [scanF, if_neg (by simp [hb])]
  have hnil : (b0 :: rest).drop (decodeRune (b0 :: rest)).2 = [] :=
    List.drop_eq_nil_of_le (by simpa using hw)
  rw [hnil, scanF_nil]

/-- The canonical encoding of a valid non-control rune is clean. -/
theorem utf8Clean_encodeRune (l : List Nat) (r w : Nat)
    (hd : decodeRune l = (r, w)) (hr : r ≠ runeError)
    (hc : isControl r = false) (hl : l ≠ []) :
    utf8Clean (encodeRune r) = true := by
  have hinv := decodeRune_invert l [] r w hd (fun hx => hr hx.1) hl
  have he : encodeRune r = l.take w := hinv.2.2.1
  have hdec : decodeRune (encodeRune r) = (r, w) := by
    rw [he]
    exact hinv.2.1
  have hlen : (encodeRune r).length = w := by
    rw [he, List.length_take]
    exact Nat.min_eq_left hinv.2.2.2.2
  rcases hm : encodeRune r with _ | ⟨b0, rest⟩
  · rw [hm] at hlen
    have := hinv.2.2.2.1
    simp at hlen
    omega
  · rw [hm] at hdec hlen
    rw [utf8Clean]
    apply scanF_once
    · rw [badClean, badValid, hdec]
      simp [hr, hc]
    · rw [hdec]
      exact le_of_eq hlen

/-- A string of printable ASCII bytes is clean. -/
theorem scanF_ascii :
    ∀ (f : Nat) (l : List Nat), l.length ≤ f →
      (∀ c ∈ l, 0x20 ≤ c ∧ c ≤ 0x7E) → scanF badClean l.length l = true := by
  intro f
  induction f with
  | zero =>
    intro l h1 _
    have : l = [] := List.length_eq_zero.1 (Nat.le_zero.1 h1)
    subst this
    rw [scanF_nil]
  | succ f ih =>
    intro l h1 hB
    match l with
    | [] => rw [scanF_nil]
    | c :: rest =>
      have hc := hB c (List.mem_cons_self c rest)
      have hd : decodeRune (c :: rest) = (c, 1) :=
        decodeRune_of_shape1 c rest (by omega)
      simp only [List.length_cons] at h1 ⊢
      rw [scanF]
      have hbad : badClean (c :: rest) = false := by
        rw [badClean, badValid, hd]
        have h2 : (c == runeError) = false := by
          simp only [beq_eq_false_iff_ne, ne_eq, runeError]
          omega
        have h3 : isControl c = false := by
          rw [isControl]
          simp only [Bool.or_eq_false_iff, Bool.and_eq_false_iff,
            decide_eq_false_iff_not, not_le]
          omega
        simp [h2, h3]
      rw [if_neg (by simp [hbad]), hd]
      show scanF badClean rest.length rest = true
      exact ih rest (by omega) (fun y hy => hB y (List.mem_cons_of_mem c hy))

/-- A string of printable ASCII bytes is clean (wrapper). -/
theorem utf8Clean_of_ascii (l : List Nat)
    (h : ∀ c ∈ l, 0x20 ≤ c ∧ c ≤ 0x7E) : utf8Clean l = true := by
  rw [utf8Clean]
  exact scanF_ascii l.length l (Nat.le_refl _) h

/-- A string of printable ASCII bytes passes the strict scan as well. -/
theorem scanF_ascii_strict :
    ∀ (f : Nat) (l : List Nat), l.length ≤ f →
      (∀ c ∈ l, 0x20 ≤ c ∧ c ≤ 0x7E) → scanF badStrict l.length l = true := by
  intro f
  induction f with
  | zero =>
    intro l h1 _
    have : l = [] := List.length_eq_zero.1 (Nat.le_zero.1 h1)
    subst this
    rw [scanF_nil]
  | succ f ih =>
    intro l h1 hB
    match l with
    | [] => rw [scanF_nil]
    | c :: rest =>
      have hc := hB c (List.mem_cons_self c rest)
      have hd : decodeRune (c :: rest) = (c, 1) :=
        decodeRune_of_shape1 c rest (by omega)
      simp only [List.length_cons] at h1 ⊢
      rw [scanF]
      have hbad : badStrict (c :: rest) = false := by
        rw [badStrict, hd]
        have h2 : (c == runeError) = false := by
          simp only [beq_eq_false_iff_ne, ne_eq, runeError]
          omega
        have h3 : isControl c = false := by
          rw [isControl]
          simp only [Bool.or_eq_false_iff, Bool.and_eq_false_iff,
            decide_eq_false_iff_not, not_le]
          omega
        simp [h2, h3]
      rw [if_neg (by simp [hbad]), hd]
      show scanF badStrict rest.length rest = true
      exact ih rest (by omega) (fun y hy => hB y (List.mem_cons_of_mem c hy))

/-- The strict scan implies Go `utf8.ValidString`. -/
theorem strict_valid (l : List Nat)
    (h : scanF badStrict l.length l = true) : validString l = true := by
  rw [validString]
  exact scanF_mono badStrict badValid (fun p hb => by
    rw [badStrict]
    rw [badValid] at hb
    simp only [Bool.and_eq_true, beq_iff_eq] at hb
    simp [hb.1]) l.length l h

theorem upperHexDigit_range (n : Nat) (h : n < 16) :
    0x30 ≤ upperHexDigit n ∧ upperHexDigit n ≤ 0x46 := by
  rw [upperHexDigit]
  split <;> omega

/-- Percent-escaping bounded bytes yields printable ASCII only. -/
theorem pathEscape_ascii :
    ∀ (l : List Nat), (∀ c ∈ l, c < 256) →
      ∀ b ∈ pathEscape l, 0x20 ≤ b ∧ b ≤ 0x7E := by
  intro l
  induction l with
  | nil =>
    intro _ b hb
    rw [pathEscape] at hb
    simp at hb
  | cons c rest ih =>
    intro hB b hb
    rw [pathEscape, List.mem_append] at hb
    rcases hb with hb | hb
    · split at hb
      · rename_i hok
        simp only [List.mem_singleton] at hb
        subst hb
        rw [escapeByteOk] at hok
        simp only [Bool.or_eq_true, Bool.and_eq_true, decide_eq_true_eq,
          beq_iff_eq] at hok
        omega
      · have hc : c < 256 := hB c (List.mem_cons_self c rest)
        have h1 := upperHexDigit_range (c / 16) (by omega)
        have h2 := upperHexDigit_range (c % 16) (by omega)
        simp only [List.mem_cons, List.not_mem_nil, or_false] at hb
        rcases hb with rfl | rfl | rfl
        · omega
        · omega
        · omega
    · exact ih (fun y hy => hB y (List.mem_cons_of_mem c hy)) b hb

/-- The rebuild loop of `S3Key` keeps the output clean: starting from a
clean accumulator, any byte-bounded input produces a clean result. -/
theorem s3keyLoopF_clean :
    ∀ (fuel : Nat) (l x : List Nat), (∀ c ∈ l, c < 256) →
      utf8Clean x = true → utf8Clean (s3keyLoopF fuel l x) = true := by
  intro fuel
  induction fuel with
  | zero =>
    intro l x _ hx
    match l with
    | [] => simpa [s3keyLoopF] using hx
    | c :: rest => simpa [s3keyLoopF] using hx
  | succ f ih =>
    intro l x hB hx
    match l with
    | [] => simpa [s3keyLoopF] using hx
    | b :: rest =>
      rw [s3keyLoopF]
      split
      · rename_i hcond
        rcases hd : decodeRune (b :: rest) with ⟨r, w⟩
        rw [hd] at hcond
        simp only at hcond
        show utf8Clean (s3keyLoopF f ((b :: rest).drop w)
          (x ++ encodeRune r)) = true
        apply ih
        · intro c hcmem
          exact hB c (List.drop_subset _ _ hcmem)
        · exact utf8Clean_append x (encodeRune r) hx
            (utf8Clean_encodeRune (b :: rest) r w hd hcond.1 hcond.2.2
              (by simp))
      · rcases hf : findValid (b :: rest) with _ | ⟨i, r, w⟩
        · show utf8Clean (x ++ pathEscape (b :: rest)) = true
          apply utf8Clean_append x _ hx
          exact utf8Clean_of_ascii _ (pathEscape_ascii (b :: rest) hB)
        · show utf8Clean (s3keyLoopF f ((b :: rest).drop (i + w))
            (x ++ pathEscape ((b :: rest).take i) ++ encodeRune r)) = true
          have hspec := findValid_spec (b :: rest) i r w hf
          apply ih
          · intro c hcmem
            exact hB c (List.drop_subset _ _ hcmem)
          · apply utf8Clean_append
            · apply utf8Clean_append x _ hx
              apply utf8Clean_of_ascii
              apply pathEscape_ascii
              intro c hcmem
              exact hB c (List.take_subset _ _ hcmem)
            · have hne : (b :: rest).drop i ≠ [] := by
                apply List.ne_nil_of_length_pos
                rw [List.length_drop]
                have hbound := hspec.2.2.2.2
                have hw0 := hspec.2.2.1
                omega
              exact utf8Clean_encodeRune ((b :: rest).drop i) r w hspec.1
                hspec.2.1 hspec.2.2.2.1 hne

/-- C7: the key normalizer.  Without percent-encoding, a key every
position of which decodes to a valid non-`RuneError` non-control rune
and whose length is within `MAX_KEY_BYTES` is returned unchanged; with
percent-encoding, any key of bytes that `S3Key` accepts yields a result
that is valid UTF-8, free of control characters, and within
`MAX_KEY_BYTES`. -/
theorem s3key_normalizer (key x : List Nat) :
    (utf8Strict key = true → key.length ≤ MAX_KEY_BYTES →
      S3Key key false = .ok key) ∧
    ((∀ c ∈ key, c < 256) → S3Key key true = .ok x →
      utf8Clean x = true ∧ x.length ≤ MAX_KEY_BYTES) := by
  constructor
  · intro hstrict hlen
    rw [utf8Strict] at hstrict
    have hv : validString key = true := strict_valid key hstrict
    have hid : s3keyLoopF key.length key [] = key := by
      have h0 := s3keyLoopF_strict key.length key [] (Nat.le_refl _) hstrict
      simpa using h0
    rw [S3Key, if_neg (by simp [hv]), if_neg (by simp [hid]),
      if_neg (by rw [hid]; omega), hid]
  · intro hB h
    rw [S3Key, if_neg (by simp), if_neg (by simp)] at h
    by_cases hlen : MAX_KEY_BYTES < (s3keyLoopF key.length key []).length
    · rw [if_pos hlen] at h
      exact Except.noConfusion h
    · rw [if_neg hlen] at h
      have hx : s3keyLoopF key.length key [] = x := by
        injection h
      constructor
      · rw [← hx]
        apply s3keyLoopF_clean key.length key [] hB
        rw [utf8Clean]
        exact scanF_nil badClean _
      · rw [← hx]
        omega

/-- Witness for the C7 theorem at concrete keys: `"aé"` passes through
unchanged without encoding, and the invalid byte `0xFF` encodes to the
clean short key `"%FF"`. -/
theorem s3key_normalizer_w :
    S3Key [0x61, 0xC3, 0xA9] false = .ok [0x61, 0xC3, 0xA9] ∧
    (utf8Clean [0x25, 0x46, 0x46] = true ∧
      [0x25, 0x46, 0x46].length ≤ MAX_KEY_BYTES) :=
  ⟨(s3key_normalizer [0x61, 0xC3, 0xA9] []).1 (by decide) (by decide),
   (s3key_normalizer [0xFF] [0x25, 0x46, 0x46]).2 (by decide) (by rfl)⟩

/-- C7 counterexample to the claim as stated: the three-byte literal
U+FFFD key is valid UTF-8 and contains no control character, yet
`S3Key` without encoding rejects it (its loop treats the decoded
`RuneError` as invalid and percent-encodes it, and the changed key is
an error); and a valid 1025-byte key errors on the length limit instead
of being returned unchanged. -/
theorem s3key_claim_cex :
    validString [0xEF, 0xBF, 0xBD] = true ∧
    utf8Clean [0xEF, 0xBF, 0xBD] = true ∧
    S3Key [0xEF, 0xBF, 0xBD] false =
      .error
        "key contained control characters and percent-encoding was not requested" ∧
    validString (List.replicate 1025 0x61) = true ∧
    utf8Clean (List.replicate 1025 0x61) = true ∧
    S3Key (List.replicate 1025 0x61) false =
      .error "key exceeds the maximum key length" := by
  have hmem : ∀ c ∈ List.replicate 1025 0x61, 0x20 ≤ c ∧ c ≤ 0x7E := by
    intro c hc
    have hce := List.eq_of_mem_replicate hc
    subst hce
    omega
  have hstrict : scanF badStrict (List.replicate 1025 0x61).length
      (List.replicate 1025 0x61) = true :=
    scanF_ascii_strict (List.replicate 1025 0x61).length _ (Nat.le_refl _)
      hmem
  have hid : s3keyLoopF (List.replicate 1025 0x61).length
      (List.replicate 1025 0x61) [] = List.replicate 1025 0x61 := by
    have h0 := s3keyLoopF_strict (List.replicate 1025 0x61).length
      (List.replicate 1025 0x61) [] (Nat.le_refl _) hstrict
    rw [List.nil_append] at h0
    exact h0
  refine ⟨by decide, by decide, by rfl, strict_valid _ hstrict,
    utf8Clean_of_ascii _ hmem, ?_⟩
  rw [S3Key,
    if_neg (fun hcon => by
      rw [strict_valid _ hstrict] at hcon
      exact Bool.noConfusion hcon.2),
    if_neg (fun hcon => hcon.2 hid),
    if_pos (by rw [hid, List.length_replicate]; decide)]

end S3up
